import Mathlib

/-!
Shallow embedding of `src/Package/yw/yw/ddpg_main/replay_buffer.py`.

Modelling conventions:
* numpy float32 values are modelled as exact rationals (`ℚ`); no claim in
  scope depends on floating-point rounding.
* a per-step value ("row") is a flattened `List ℚ`; a field array of a
  ring buffer is a `List Row` (transitions × dim); a field array of an
  episode buffer is a `List (List Row)` (episodes × steps × dim).
* the Python `dict` of arrays is an association list with `String` keys;
  Python dict assignment updates the existing binding in place (keeping
  insertion order) or appends a fresh binding at the end.
* randomness (`np.random.randint`, `np.random.uniform`) is passed in
  explicitly: integer draws as `List Nat` and uniform draws as `List ℚ`,
  with the range constraints (`< bound`, `∈ [0,1)`) appearing as
  hypotheses of the theorems, exactly the guarantees numpy provides.
* exceptions (`assert`, KeyError, ValueError) are modelled by an explicit
  result type that carries the state at the moment the exception fires,
  so that partial mutation is observable.
-/

abbrev Row : Type := List ℚ

/-- Association-list lookup with a default, `dict.get`-style but used where
Python would raise `KeyError`; the claims only read keys that are present. -/
def lookupD {β : Type} (m : List (String × β)) (k : String) (d : β) : β :=
  (m.lookup k).getD d

/-- `d[k] = f (d[k])` on a Python dict: rewrite the value of every binding of
key `k` in place, keeping insertion order. -/
def updKey {β : Type} (m : List (String × β)) (k : String) (f : β → β) :
    List (String × β) :=
  match m with
  | [] => []
  | (a, v) :: rest => (if a = k then (a, f v) else (a, v)) :: updKey rest k f

/-- Python `k in d`. -/
def containsKey {β : Type} (m : List (String × β)) (k : String) : Bool :=
  m.any (fun p => p.1 == k)

/-- Python `d[k] = v`: overwrite in place when the key exists, else append. -/
def setKey {β : Type} (m : List (String × β)) (k : String) (v : β) :
    List (String × β) :=
  if containsKey m k then updKey m k (fun _ => v) else m ++ [(k, v)]

/-- Python `s.startswith(pre)`. -/
def startsWithStr (s pre : String) : Bool :=
  pre.data.isPrefixOf s.data

/-- Python `str.replace`: replace every non-overlapping occurrence of `pat`,
scanning left to right and continuing after each replacement.  The `Nat`
argument is fuel (one unit per consumed character) so the recursion is
structural and kernel-reducible. -/
def pyReplaceAux (pat rep : List Char) : Nat → List Char → List Char
  | _, [] => []
  | 0, s => s
  | fuel + 1, c :: rest =>
    if pat.isPrefixOf (c :: rest) then
      rep ++ pyReplaceAux pat rep fuel (rest.drop (pat.length - 1))
    else
      c :: pyReplaceAux pat rep fuel rest

/-- Python `s.replace(pat, rep)` (replaces ALL occurrences, not only a
leading one). -/
def pyReplace (s pat rep : String) : String :=
  String.mk (pyReplaceAux pat.data rep.data s.data.length s.data)

/-- Python `l[i]` with negative-index support (`l[-1]` is the last element);
`none` models `IndexError`. -/
def pyIndex {α : Type} (l : List α) (i : Int) : Option α :=
  if 0 ≤ i then l[i.toNat]?
  else if (-i).toNat ≤ l.length then l[l.length - (-i).toNat]? else none

/-- numpy `.astype(int)`: truncation toward zero. -/
def astypeInt (q : ℚ) : Int :=
  if 0 ≤ q then ⌊q⌋ else -⌊-q⌋

/-- Result of a stateful Python call: `ok` is a normal return, `err` is a
raised exception; both carry the state of the object at that moment (a
raise does NOT roll back earlier in-place mutations). -/
inductive StoreResult (β : Type) where
  | ok : β → StoreResult β
  | err : β → String → StoreResult β

def StoreResult.isOk {β : Type} : StoreResult β → Bool
  | .ok _ => true
  | .err _ _ => false

/-- The state carried by the result, whether or not an exception fired. -/
def StoreResult.state {β : Type} : StoreResult β → β
  | .ok b => b
  | .err b _ => b

/-- Sequential element-wise array update `arr[i] = v` for each index/value
pair, in order (numpy fancy-index assignment; with repeated indices the
last write wins, as in numpy). -/
def writeSlots {α : Type} : List α → List Nat → List α → List α
  | arr, i :: is, v :: vs => writeSlots (arr.set i v) is vs
  | arr, _, _ => arr

/-- numpy `arr[idxs] = vals`: numpy validates the value shape against the
array's element shape before writing, so a single fancy-index assignment is
atomic — either every slot is written or none.  `conf template v` is the
shape check of one value against the (rectangular) array's element shape,
read off the first slot.  (numpy additionally accepts degenerate length-1
broadcasts; no claim in scope exercises that case.) -/
def assignSlots {α : Type} (conf : α → α → Bool) (dflt : α)
    (arr : List α) (idxs : List Nat) (vals : List α) : Option (List α) :=
  if vals.length == idxs.length && vals.all (fun v => conf (arr.headD dflt) v) then
    some (writeSlots arr idxs vals)
  else none

/-- The write loop of `ReplayBufferBase.store_episode`:
`for key in self.buffers.keys(): self.buffers[key][idxs] = episode_batch[key]`.
Returns the (possibly partially updated) field arrays and a success flag;
a missing batch key (KeyError) or a shape mismatch (ValueError) aborts the
loop with every previously processed key already written. -/
def writeAll {α : Type} (conf : α → α → Bool) (dflt : α)
    (bufs : String → List α) (keys : List String) (idxs : List Nat)
    (batch : List (String × List α)) : (String → List α) × Bool :=
  match keys with
  | [] => (bufs, true)
  | k :: ks =>
    match batch.lookup k with
    | none => (bufs, false)
    | some vals =>
      match assignSlots conf dflt (bufs k) idxs vals with
      | none => (bufs, false)
      | some arr =>
        writeAll conf dflt (fun k2 => if k2 = k then arr else bufs k2) ks idxs batch

/-- `batch_sizes[0]`: the leading dimension of the first field of the batch. -/
def batchSize {α : Type} (batch : List (String × List α)) : Nat :=
  match batch with
  | [] => 0
  | (_, v) :: _ => v.length

/-- Shape check for ring-buffer rows: the row length must equal the array's
per-step width. -/
def rowConf (template v : Row) : Bool :=
  v.length == template.length

/-- Shape check for episode slots: step count and per-step widths must match
the array's episode shape. -/
def epConf (template v : List Row) : Bool :=
  v.map List.length == template.map List.length

/-- `RingReplayBuffer`: `size` in transitions, one flat array per field,
`pointer` is the next write offset. -/
structure RingBuffer where
  size : Nat
  keys : List String
  bufs : String → List Row
  currentSize : Nat
  pointer : Nat

/-- `RingReplayBuffer._get_storage_idx` (index computation and the new
pointer; the `assert`s guarding it are applied by the caller below, as in
the source they fire before any state is touched).  The `inc == 1`
scalarisation of the source (`idx = idx[0]`) is observationally the same
as assigning through the singleton index list and is modelled that way. -/
def ringStorageIdx (size pointer inc : Nat) : List Nat × Nat :=
  if pointer + inc ≤ size then
    (List.range' pointer inc, pointer + inc)
  else
    (List.range' pointer (size - pointer) ++ List.range' 0 (inc - (size - pointer)),
      inc - (size - pointer))

/-- `ReplayBufferBase.store_episode` for the ring variant.  Order of events
as in the source: batch-size consistency assert, `_get_storage_idx`
(asserts, then pointer update), per-field writes, `current_size` update. -/
def storeEpisodeRing (b : RingBuffer) (batch : List (String × List Row)) :
    StoreResult RingBuffer :=
  match batch with
  | [] => .err b "IndexError: batch_sizes[0]"
  | (_, v0) :: _ =>
    if !(batch.all (fun p => p.2.length == v0.length)) then
      .err b "AssertionError: batch sizes"
    else if !(v0.length ≤ b.size) then
      .err b "AssertionError: batch committed to replay is too large!"
    else if !(0 < v0.length) then
      .err b "AssertionError: invalid increment"
    else
      let pr := ringStorageIdx b.size b.pointer v0.length
      let wr := writeAll rowConf [] b.bufs b.keys pr.1 batch
      if wr.2 then
        .ok { b with bufs := wr.1, pointer := pr.2,
                     currentSize := min b.size (b.currentSize + v0.length) }
      else
        .err { b with bufs := wr.1, pointer := pr.2 } "ValueError"

/-- Store a sequence of batches one `store_episode` call at a time,
stopping at the first exception. -/
def storeListRing (b : RingBuffer) : List (List (String × List Row)) →
    StoreResult RingBuffer
  | [] => .ok b
  | batch :: rest =>
    match storeEpisodeRing b batch with
    | .ok b2 => storeListRing b2 rest
    | .err b2 msg => .err b2 msg

/-- A single-transition batch for the one field "u". -/
def mkBatch1 (v : Row) : List (String × List Row) := [("u", [v])]

/-- A freshly constructed ring buffer over the single field "u" of width
`w` (`np.empty` contents modelled as zeros; they are never read before
being overwritten in the claims). -/
def mkRing (size w : Nat) : RingBuffer :=
  { size := size
    keys := ["u"]
    bufs := fun _ => List.replicate size (List.replicate w 0)
    currentSize := 0
    pointer := 0 }

/-- `ReplayBuffer` (fixed-horizon episode buffer): `size` in episodes, one
episodes × steps × dim array per field. -/
structure EpBuffer where
  size : Nat
  keys : List String
  bufs : String → List (List Row)
  currentSize : Nat
  T : Nat

/-- `ReplayBuffer._get_storage_idx`: sequential fill while room remains;
a batch crossing the boundary fills the free tail sequentially and places
the overflow at `np.random.randint(0, current_size, overflow)` (the draws
are the `rnd` argument); once full, all indices are random in
`[0, size)`. -/
def epStorageIdx (size cs inc : Nat) (rnd : List Nat) : List Nat :=
  if cs + inc ≤ size then List.range' cs inc
  else if cs < size then List.range' cs (size - cs) ++ rnd.take (inc - (size - cs))
  else rnd.take inc

/-- `ReplayBufferBase.store_episode` for the episode variant. -/
def storeEpisodeEp (b : EpBuffer) (batch : List (String × List (List Row)))
    (rnd : List Nat) : StoreResult EpBuffer :=
  match batch with
  | [] => .err b "IndexError: batch_sizes[0]"
  | (_, v0) :: _ =>
    if !(batch.all (fun p => p.2.length == v0.length)) then
      .err b "AssertionError: batch sizes"
    else if !(v0.length ≤ b.size) then
      .err b "AssertionError: batch committed to replay is too large!"
    else if !(0 < v0.length) then
      .err b "AssertionError: invalid increment"
    else
      let wr := writeAll epConf [] b.bufs b.keys
          (epStorageIdx b.size b.currentSize v0.length rnd) batch
      if wr.2 then
        .ok { b with bufs := wr.1,
                     currentSize := min b.size (b.currentSize + v0.length) }
      else
        .err { b with bufs := wr.1 } "ValueError"

/-- `ReplayBufferBase.dump_to_file`: nothing is written when the buffer is
empty; otherwise the archive holds, per field, the valid prefix
`v[: current_size]`. -/
def dumpToFile {α : Type} (keys : List String) (bufs : String → List α)
    (currentSize : Nat) : Option (List (String × List α)) :=
  if currentSize = 0 then none
  else some (keys.map (fun k => (k, (bufs k).take currentSize)))

def dumpRing (b : RingBuffer) : Option (List (String × List Row)) :=
  dumpToFile b.keys b.bufs b.currentSize

def dumpEp (b : EpBuffer) : Option (List (String × List (List Row))) :=
  dumpToFile b.keys b.bufs b.currentSize

/-- `np.nonzero(arr)[0]` on a 2-D array: the row index of every nonzero
entry, in row-major order. -/
def nonzeroRows (arr : List Row) : List Nat :=
  arr.enum.flatMap (fun p => (p.2.filter (fun x => !(x == 0))).map (fun _ => p.1))

/-- `RingReplayBuffer.load_from_file`: requires a "done" field, truncates
the archive to one past the `num_demo`-th episode boundary (`dones[-1]`
when `num_demo is None`), and hands the result to `store_episode`.  Note
that nothing resets `current_size` or `pointer` here.  Python computes
`dones[num_demo - 1]`, so `num_demo = 0` indexes `dones[-1]`.  Returns the
(truncated) batch alongside the buffer, as the source returns
`episode_batch`. -/
def loadFromFileRing (b : RingBuffer) (file : List (String × List Row))
    (numDemo : Option Int) : StoreResult (RingBuffer × List (String × List Row)) :=
  if !(containsKey file "done") then .err (b, file) "AssertionError: done"
  else
    let dones := nonzeroRows (lookupD file "done" [])
    if !(match numDemo with
         | none => true
         | some nd => nd ≤ (dones.length : Int)) then
      .err (b, file) "AssertionError: num_demo"
    else
      match (match numDemo with
             | none => pyIndex dones (-1)
             | some nd => pyIndex dones (nd - 1)) with
      | none => .err (b, file) "IndexError: dones"
      | some lastIdx =>
        let batch := file.map (fun p => (p.1, p.2.take (lastIdx + 1)))
        match storeEpisodeRing b batch with
        | .ok b2 => .ok (b2, batch)
        | .err b2 msg => .err (b2, batch) msg

/-- `ReplayBuffer.load_from_file` (episode variant): per field, assert the
array is 3-D (guaranteed by typing here) and that `num_demo` does not
exceed the episode count, truncate to `[:num_demo]` (`[:None]` keeps
everything), then `store_episode`.  The store's overflow branch draws
randomness the loader does not thread, so this model passes an empty draw
list; every claim in scope loads into a buffer with enough room, where the
sequential branch is taken and the list is unused. -/
def loadFromFileEp (b : EpBuffer) (file : List (String × List (List Row)))
    (numDemo : Option Nat) : StoreResult (EpBuffer × List (String × List (List Row))) :=
  if !(match numDemo with
       | none => true
       | some nd => file.all (fun p => nd ≤ p.2.length)) then
    .err (b, file) "AssertionError: No enough demonstration data!"
  else
    let batch := match numDemo with
      | none => file
      | some nd => file.map (fun p => (p.1, p.2.take nd))
    match storeEpisodeEp b batch [] with
    | .ok b2 => .ok (b2, batch)
    | .err b2 msg => .err (b2, batch) msg

/-! ## Samplers -/

/-- Per-key buffers handed to `sample_transitions`: episodes × steps × dim. -/
abbrev EpBuffers : Type := List (String × List (List Row))

/-- A sampled transition batch: per key, batch_size rows. -/
abbrev TransBatch : Type := List (String × List Row)

/-- `buffers[key][episode_idxs, t_samples].copy()`: the element-wise gather
pairing the i-th episode draw with the i-th timestep draw. -/
def gatherRows (arr : List (List Row)) (eIdxs ts : List Nat) (bs : Nat) :
    List Row :=
  (List.range bs).map (fun i => ((arr.getD (eIdxs.getD i 0) []).getD (ts.getD i 0) []))

/-- `UniformReplayBuffer.sample_transitions`: gather at the drawn
(episode, timestep) pairs; the trailing reshape of the source is the
identity on already per-record-shaped data and is omitted. -/
def uniformSampleTransitions (buffers : EpBuffers) (bs : Nat)
    (eIdxs ts : List Nat) : TransBatch :=
  buffers.map (fun p => (p.1, gatherRows p.2 eIdxs ts bs))

/-- numpy boolean-mask assignment `arr[mask_idx] = new`: position `i` gets
`f i old` when selected, keeps `old` otherwise (`np.where` turns the mask
into exactly the selected positions). -/
def maskUpd (sel : Nat → Bool) (f : Nat → Row → Row) : Nat → List Row → List Row
  | _, [] => []
  | i, r :: rest => (if sel i then f i r else r) :: maskUpd sel f (i + 1) rest

/-- The info mapping reconstructed before the reward call: every field
whose name starts with "info_", keyed by `key.replace("info_", "")`. -/
def infoOf (m : TransBatch) : TransBatch :=
  m.filterMap (fun p =>
    if startsWithStr p.1 "info_" then some (pyReplace p.1 "info_" "", p.2) else none)

/-- Modelled from the spec: the info mapping as the spec's words describe
it — the `info_` PREFIX stripped from the field name (the source instead
removes every occurrence via `str.replace`).  Used only to compare the
spec's description against the source behaviour. -/
def infoOfSpec (m : TransBatch) : TransBatch :=
  m.filterMap (fun p =>
    if startsWithStr p.1 "info_" then
      some ((String.mk (p.1.data.drop "info_".data.length), p.2))
    else none)

/-- `1 - (1. / (1 + k))` from `HERReplayBuffer.__init__`. -/
def mkFutureP (k : ℚ) : ℚ := 1 - 1 / (1 + k)

/-- Record `i` is selected for relabeling: its uniform draw is below
`future_p` (`np.where(np.random.uniform(size=batch_size) < self.future_p)`). -/
def herSel (coins : List ℚ) (futureP : ℚ) (i : Nat) : Bool :=
  decide (coins.getD i 1 < futureP)

/-- `future_t[i] = t_samples[i] + 1 + int(uniform() * (T - t_samples[i]))`. -/
def futT (T : Nat) (ts : List Nat) (offs : List ℚ) (i : Nat) : Nat :=
  ts.getD i 0 + 1 + (astypeInt (offs.getD i 0 * ((T : ℚ) - (ts.getD i 0 : ℚ)))).toNat

/-- `future_ag[i] = buffers["ag"][episode_idxs[i], future_t[i]]`. -/
def futAg (buffers : List (String × List (List Row))) (eIdxs : List Nat)
    (T : Nat) (ts : List Nat) (offs : List ℚ) (i : Nat) : Row :=
  ((lookupD buffers "ag" []).getD (eIdxs.getD i 0) []).getD (futT T ts offs i) []

/-- `HERReplayBuffer.sample_transitions`.  Random draws: `eIdxs`/`ts` are
the `np.random.randint` episode/timestep draws, `coins` the uniforms
compared against `future_p`, `offs` the uniforms scaled into future
offsets.  The reward callable returns one scalar per record which the
source reshapes to `[batch_size, 1]`; the trailing all-fields reshape is
the identity and is omitted. -/
def herSampleTransitions (buffers : EpBuffers) (bs T : Nat) (futureP : ℚ)
    (rewardFun : List Row → List Row → TransBatch → List ℚ)
    (eIdxs ts : List Nat) (coins offs : List ℚ) : TransBatch :=
  let transitions : TransBatch := buffers.map (fun p => (p.1, gatherRows p.2 eIdxs ts bs))
  let t1 := updKey transitions "g"
    (fun g => maskUpd (herSel coins futureP) (fun i _ => futAg buffers eIdxs T ts offs i) 0 g)
  let t2 := updKey t1 "g_2"
    (fun g => maskUpd (herSel coins futureP) (fun i _ => futAg buffers eIdxs T ts offs i) 0 g)
  let t3 := if containsKey t2 "q" then
      updKey t2 "q"
        (fun q => maskUpd (herSel coins futureP) (fun _ r => r.map (fun _ => (-100 : ℚ))) 0 q)
    else t2
  let r := (rewardFun (lookupD t3 "ag_2" []) (lookupD t3 "g_2" []) (infoOf t3)).map
    (fun x => [x])
  setKey t3 "r" r

/-- `ReplayBuffer.sample`'s preprocessing: truncate every field to the
valid prefix, then derive `o_2`/`ag_2` as the one-step shift and `g_2` as
the goal field itself (`buffers["g"][:, :, :]` is the same data). -/
def epSampleBuffers (b : EpBuffer) : EpBuffers :=
  let buffers0 : EpBuffers := b.keys.map (fun k => (k, (b.bufs k).take b.currentSize))
  let buffers1 := setKey buffers0 "o_2" ((lookupD buffers0 "o" []).map (fun ep => ep.drop 1))
  let buffers2 := if containsKey buffers1 "ag" then
      setKey buffers1 "ag_2" ((lookupD buffers1 "ag" []).map (fun ep => ep.drop 1))
    else buffers1
  if containsKey buffers2 "g" then
    setKey buffers2 "g_2" (lookupD buffers2 "g" [])
  else buffers2

/-- `ReplayBuffer.sample` specialised to the HER sampler: preprocessing
followed by `HERReplayBuffer.sample_transitions`. -/
def herSample (b : EpBuffer) (bs : Nat) (futureP : ℚ)
    (rewardFun : List Row → List Row → TransBatch → List ℚ)
    (eIdxs ts : List Nat) (coins offs : List ℚ) : TransBatch :=
  herSampleTransitions (epSampleBuffers b) bs b.T futureP rewardFun eIdxs ts coins offs


/-! ## Association-list lemmas -/

theorem lookup_cons_eq {β : Type} (a k : String) (b : β) (l : List (String × β)) :
    List.lookup a ((k, b) :: l) = if a == k then some b else List.lookup a l := by
  simp only [List.lookup]
  cases h : a == k <;> simp

theorem lookup_updKey_self {β : Type} (m : List (String × β)) (k : String)
    (f : β → β) : (updKey m k f).lookup k = (m.lookup k).map f := by
  induction m with
  | nil => rfl
  | cons p rest ih =>
    obtain ⟨a, v⟩ := p
    by_cases h : a = k
    · subst h
      rw [updKey, if_pos rfl, lookup_cons_eq, lookup_cons_eq]
      simp
    · rw [updKey, if_neg h, lookup_cons_eq, lookup_cons_eq]
      have hb : (k == a) = false := by simp [Ne.symm h]
      rw [hb]
      simp only [if_false, Bool.false_eq_true]
      exact ih

theorem lookup_updKey_ne {β : Type} (m : List (String × β)) (k k2 : String)
    (f : β → β) (h : k2 ≠ k) : (updKey m k f).lookup k2 = m.lookup k2 := by
  induction m with
  | nil => rfl
  | cons p rest ih =>
    obtain ⟨a, v⟩ := p
    by_cases hp : a = k
    · subst hp
      have hb : (k2 == a) = false := by simp [h]
      rw [updKey, if_pos rfl, lookup_cons_eq, lookup_cons_eq, hb]
      simp only [if_false, Bool.false_eq_true]
      exact ih
    · rw [updKey, if_neg hp, lookup_cons_eq, lookup_cons_eq]
      by_cases hq : (k2 == a) = true
      · rw [if_pos hq, if_pos hq]
      · rw [if_neg hq, if_neg hq]
        exact ih

theorem containsKey_iff_lookup {β : Type} (m : List (String × β)) (k : String) :
    containsKey m k = true ↔ ∃ w, m.lookup k = some w := by
  induction m with
  | nil => simp [containsKey, List.lookup]
  | cons p rest ih =>
    obtain ⟨a, v⟩ := p
    by_cases h : a = k
    · subst h
      simp [containsKey, lookup_cons_eq]
    · have hb1 : (a == k) = false := by simp [h]
      have hb2 : (k == a) = false := by simp [Ne.symm h]
      simp only [containsKey, List.any_cons, hb1, Bool.false_or, lookup_cons_eq, hb2]
      simp only [if_false, Bool.false_eq_true]
      exact ih

theorem lookup_setKey_self {β : Type} (m : List (String × β)) (k : String)
    (v : β) : (setKey m k v).lookup k = some v := by
  unfold setKey
  by_cases h : containsKey m k = true
  · rw [if_pos h, lookup_updKey_self]
    obtain ⟨w, hw⟩ := (containsKey_iff_lookup m k).mp h
    simp [hw]
  · rw [if_neg h, List.lookup_append]
    have hnone : m.lookup k = none := by
      cases hl : m.lookup k with
      | none => rfl
      | some w => exact absurd ((containsKey_iff_lookup m k).mpr ⟨w, hl⟩) h
    simp [hnone, lookup_cons_eq]

theorem lookup_setKey_ne {β : Type} (m : List (String × β)) (k k2 : String)
    (v : β) (h : k2 ≠ k) : (setKey m k v).lookup k2 = m.lookup k2 := by
  unfold setKey
  by_cases hc : containsKey m k = true
  · rw [if_pos hc, lookup_updKey_ne _ _ _ _ h]
  · rw [if_neg hc, List.lookup_append]
    cases hl : m.lookup k2 with
    | some w => rfl
    | none =>
      have hb : (k2 == k) = false := by simp [h]
      simp [lookup_cons_eq, hb]

theorem lookup_map_keys {β : Type} (keys : List String) (f : String → β)
    (k : String) (h : k ∈ keys) :
    (keys.map (fun a => (a, f a))).lookup k = some (f k) := by
  induction keys with
  | nil => cases h
  | cons a rest ih =>
    by_cases ha : a = k
    · subst ha
      rw [List.map_cons, lookup_cons_eq]
      simp
    · have hb : (k == a) = false := by simp [Ne.symm ha]
      have hm : k ∈ rest := by
        cases List.mem_cons.mp h with
        | inl e => exact absurd e.symm ha
        | inr hr => exact hr
      rw [List.map_cons, lookup_cons_eq, hb]
      simp only [if_false, Bool.false_eq_true]
      exact ih hm

theorem updKey_id {β : Type} (m : List (String × β)) (k : String)
    (f : β → β) (hf : ∀ w, f w = w) : updKey m k f = m := by
  induction m with
  | nil => rfl
  | cons p rest ih =>
    obtain ⟨a, v⟩ := p
    by_cases h : a = k
    · simp only [updKey, if_pos h, hf, ih]
    · simp only [updKey, if_neg h, ih]

/-! ## maskUpd lemmas -/

theorem maskUpd_getElem (sel : Nat → Bool) (f : Nat → Row → Row)
    (l : List Row) (i j : Nat) :
    (maskUpd sel f i l)[j]? =
      (l[j]?).map (fun r => if sel (i + j) then f (i + j) r else r) := by
  induction l generalizing i j with
  | nil => simp [maskUpd]
  | cons r rest ih =>
    cases j with
    | zero => simp [maskUpd]
    | succ j2 =>
      simp only [maskUpd, List.getElem?_cons_succ]
      rw [ih (i + 1) j2, show i + 1 + j2 = i + (j2 + 1) from by omega]

theorem maskUpd_false (sel : Nat → Bool) (f : Nat → Row → Row)
    (l : List Row) (i : Nat) (h : ∀ j, sel j = false) :
    maskUpd sel f i l = l := by
  induction l generalizing i with
  | nil => rfl
  | cons r rest ih => simp [maskUpd, h, ih]

/-! ## writeSlots lemmas -/

theorem writeSlots_nil_idx {α : Type} (arr vals : List α) :
    writeSlots arr [] vals = arr := by
  cases vals <;> rfl

theorem writeSlots_nil_vals {α : Type} (arr : List α) (idxs : List Nat) :
    writeSlots arr idxs [] = arr := by
  cases idxs <;> rfl

theorem writeSlots_length {α : Type} (arr : List α) (idxs : List Nat)
    (vals : List α) : (writeSlots arr idxs vals).length = arr.length := by
  induction idxs generalizing arr vals with
  | nil => rw [writeSlots_nil_idx]
  | cons i is ih =>
    cases vals with
    | nil => rw [writeSlots_nil_vals]
    | cons v vs => rw [writeSlots, ih, List.length_set]

theorem writeSlots_getElem_notmem {α : Type} (arr : List α) (idxs : List Nat)
    (vals : List α) (j : Nat) (h : j ∉ idxs) :
    (writeSlots arr idxs vals)[j]? = arr[j]? := by
  induction idxs generalizing arr vals with
  | nil => rw [writeSlots_nil_idx]
  | cons i is ih =>
    cases vals with
    | nil => rw [writeSlots_nil_vals]
    | cons v vs =>
      have hji : i ≠ j := fun e => h (e ▸ List.mem_cons_self i is)
      rw [writeSlots, ih _ _ (fun hm => h (List.mem_cons_of_mem i hm)),
        List.getElem?_set_ne hji]

theorem writeSlots_getElem_distinct {α : Type} (arr : List α) (idxs : List Nat)
    (vals : List α) (hn : idxs.Nodup) (hb : ∀ i ∈ idxs, i < arr.length)
    (p : Nat) (ip : Nat) (v : α) (hip : idxs[p]? = some ip)
    (hv : vals[p]? = some v) :
    (writeSlots arr idxs vals)[ip]? = some v := by
  induction idxs generalizing arr vals p with
  | nil => simp at hip
  | cons i is ih =>
    cases vals with
    | nil => simp at hv
    | cons w ws =>
      cases p with
      | zero =>
        simp only [List.getElem?_cons_zero, Option.some.injEq] at hip hv
        subst hip; subst hv
        rw [writeSlots, writeSlots_getElem_notmem _ _ _ _ (List.nodup_cons.mp hn).1]
        have hlt := hb _ (List.mem_cons_self _ is)
        simp [List.getElem?_set_self, hlt]
      | succ p2 =>
        simp only [List.getElem?_cons_succ] at hip hv
        refine ih (arr.set i w) ws (List.nodup_cons.mp hn).2 ?_ p2 hip hv
        intro a ha
        rw [List.length_set]
        exact hb a (List.mem_cons_of_mem i ha)

theorem writeSlots_append {α : Type} (arr : List α) (i1 i2 : List Nat)
    (v1 v2 : List α) (h : i1.length = v1.length) :
    writeSlots arr (i1 ++ i2) (v1 ++ v2) = writeSlots (writeSlots arr i1 v1) i2 v2 := by
  induction i1 generalizing arr v1 with
  | nil =>
    cases v1 with
    | nil => simp [writeSlots_nil_idx]
    | cons _ _ => simp at h
  | cons i is ih =>
    cases v1 with
    | nil => simp at h
    | cons v vs =>
      simp only [List.cons_append, writeSlots]
      exact ih _ _ (by simpa using h)

/-! ## writeAll lemmas -/

theorem writeAll_spec {α : Type} (conf : α → α → Bool) (dflt : α)
    (keys : List String) : ∀ (bufs : String → List α) (idxs : List Nat)
    (batch : List (String × List α)), keys.Nodup →
    (∀ k ∈ keys, ∃ vals, batch.lookup k = some vals ∧
      (assignSlots conf dflt (bufs k) idxs vals).isSome = true) →
    (writeAll conf dflt bufs keys idxs batch).2 = true ∧
    ∀ k2, (k2 ∉ keys → (writeAll conf dflt bufs keys idxs batch).1 k2 = bufs k2) ∧
      (k2 ∈ keys → ∀ vals, batch.lookup k2 = some vals →
        some ((writeAll conf dflt bufs keys idxs batch).1 k2) =
          assignSlots conf dflt (bufs k2) idxs vals) := by
  induction keys with
  | nil =>
    intro bufs idxs batch _ _
    refine ⟨rfl, fun k2 => ⟨fun _ => rfl, fun hk => absurd hk (List.not_mem_nil k2)⟩⟩
  | cons k ks ih =>
    intro bufs idxs batch hn h
    obtain ⟨vals, hlk, hsome⟩ := h k (List.mem_cons_self k ks)
    obtain ⟨arr, harr⟩ := Option.isSome_iff_exists.mp hsome
    have hknotin : k ∉ ks := (List.nodup_cons.mp hn).1
    have hstep : writeAll conf dflt bufs (k :: ks) idxs batch =
        writeAll conf dflt (fun k2 => if k2 = k then arr else bufs k2) ks idxs batch := by
      simp only [writeAll, hlk, harr]
    have hih := ih (fun k2 => if k2 = k then arr else bufs k2) idxs batch
      (List.nodup_cons.mp hn).2
      (by
        intro k2 hk2
        obtain ⟨vals2, hl2, hs2⟩ := h k2 (List.mem_cons_of_mem k hk2)
        have hne : k2 ≠ k := fun e => hknotin (e ▸ hk2)
        exact ⟨vals2, hl2, by simpa [if_neg hne] using hs2⟩)
    refine ⟨by rw [hstep]; exact hih.1, ?_⟩
    intro k2
    constructor
    · intro hk2
      have hne : k2 ≠ k := fun e => hk2 (e ▸ List.mem_cons_self k ks)
      have hnin : k2 ∉ ks := fun hm => hk2 (List.mem_cons_of_mem k hm)
      rw [hstep, ((hih.2 k2).1 hnin)]
      simp [if_neg hne]
    · intro hk2 vals2 hl2
      rcases List.mem_cons.mp hk2 with he | hm
      · subst he
        have hv2 : vals2 = vals := by
          rw [hlk] at hl2
          exact (Option.some_inj.mp hl2).symm
        subst hv2
        rw [hstep, ((hih.2 k2).1 hknotin)]
        simp only [if_pos rfl]
        exact harr.symm
      · have hne : k2 ≠ k := fun e => hknotin (e ▸ hm)
        rw [hstep]
        have := (hih.2 k2).2 hm vals2 hl2
        simpa [if_neg hne] using this

/-! ## ringStorageIdx lemmas -/

theorem ringStorageIdx_length (size pointer inc : Nat) (hp : pointer ≤ size)
    (hi : inc ≤ size) : (ringStorageIdx size pointer inc).1.length = inc := by
  unfold ringStorageIdx
  split_ifs with h
  · simp
  · simp only [List.length_append, List.length_range']
    omega

theorem ringStorageIdx_lt (size pointer inc : Nat) (hp : pointer ≤ size)
    (hi : inc ≤ size) :
    ∀ j ∈ (ringStorageIdx size pointer inc).1, j < size := by
  unfold ringStorageIdx
  split_ifs with h
  · intro j hj
    rw [List.mem_range'_1] at hj
    omega
  · intro j hj
    rcases List.mem_append.mp hj with hj1 | hj2
    · rw [List.mem_range'_1] at hj1
      omega
    · rw [List.mem_range'_1] at hj2
      omega

theorem ringStorageIdx_nodup (size pointer inc : Nat) (hp : pointer ≤ size)
    (hi : inc ≤ size) : (ringStorageIdx size pointer inc).1.Nodup := by
  unfold ringStorageIdx
  split_ifs with h
  · exact List.nodup_range' _ _ _ (by norm_num)
  · refine List.Nodup.append (List.nodup_range' _ _ _ (by norm_num))
      (List.nodup_range' _ _ _ (by norm_num)) ?_
    rw [List.disjoint_left]
    intro j hj1 hj2
    rw [List.mem_range'_1] at hj1 hj2
    omega

theorem ringStorageIdx_ptr_le (size pointer inc : Nat) (hp : pointer ≤ size)
    (hi : inc ≤ size) : (ringStorageIdx size pointer inc).2 ≤ size := by
  unfold ringStorageIdx
  split_ifs with h <;> simp <;> omega

/-! ## Widths of rectangular arrays -/

theorem headD_width {α : Type} (l : List (List α)) (w : Nat) (hne : l ≠ [])
    (hw : ∀ r ∈ l, r.length = w) : (l.headD []).length = w := by
  cases l with
  | nil => exact absurd rfl hne
  | cons r rest => exact hw r (List.mem_cons_self r rest)

/-! ## seqIdxs: the slots written by a run of consecutive ring stores -/

/-- Slot indices of `n` consecutive single-transition ring-buffer stores
starting at write pointer `p`: `p % C, (p+1) % C, ...`. -/
def seqIdxs (C : Nat) : Nat → Nat → List Nat
  | _, 0 => []
  | p, n + 1 => p % C :: seqIdxs C (p + 1) n

theorem seqIdxs_congr (C : Nat) (n : Nat) : ∀ p q, p % C = q % C →
    seqIdxs C p n = seqIdxs C q n := by
  induction n with
  | zero => intro p q _; rfl
  | succ m ih =>
    intro p q h
    rw [seqIdxs, seqIdxs, h, ih (p + 1) (q + 1) (by rw [Nat.add_mod, h, ← Nat.add_mod])]

theorem seqIdxs_length (C p n : Nat) : (seqIdxs C p n).length = n := by
  induction n generalizing p with
  | zero => rfl
  | succ m ih => rw [seqIdxs, List.length_cons, ih]

theorem seqIdxs_getElem (C : Nat) (n : Nat) : ∀ p r, r < n →
    (seqIdxs C p n)[r]? = some ((p + r) % C) := by
  induction n with
  | zero => intro p r h; omega
  | succ m ih =>
    intro p r h
    cases r with
    | zero => simp [seqIdxs]
    | succ r2 =>
      rw [seqIdxs, List.getElem?_cons_succ, ih (p + 1) r2 (by omega),
        show p + 1 + r2 = p + (r2 + 1) from by omega]

theorem seqIdxs_mem (C : Nat) (n : Nat) : ∀ p j, j ∈ seqIdxs C p n ↔
    ∃ r, r < n ∧ j = (p + r) % C := by
  induction n with
  | zero => intro p j; simp [seqIdxs]
  | succ m ih =>
    intro p j
    rw [seqIdxs, List.mem_cons, ih (p + 1) j]
    constructor
    · rintro (he | ⟨r, hr, he⟩)
      · exact ⟨0, by omega, by simpa using he⟩
      · exact ⟨r + 1, by omega, by rw [he]; congr 1; omega⟩
    · rintro ⟨r, hr, he⟩
      cases r with
      | zero => exact Or.inl (by simpa using he)
      | succ r2 =>
        refine Or.inr ⟨r2, by omega, ?_⟩
        rw [he]
        congr 1
        omega

theorem seqIdxs_lt (C : Nat) (hC : 0 < C) (p n : Nat) :
    ∀ j ∈ seqIdxs C p n, j < C := by
  intro j hj
  obtain ⟨r, _, he⟩ := (seqIdxs_mem C n p j).mp hj
  rw [he]
  exact Nat.mod_lt _ hC

theorem mod_add_cancel_contra (C p k : Nat) (h0 : 0 < k) (hk : k < C)
    (he : (p + k) % C = p % C) : False := by
  have h1 : p + k ≡ p + 0 [MOD C] := by
    unfold Nat.ModEq
    simpa using he
  have h2 : k ≡ 0 [MOD C] := Nat.ModEq.add_left_cancel' p h1
  have h3 : k % C = 0 := by
    have := h2
    unfold Nat.ModEq at this
    simpa using this
  rw [Nat.mod_eq_of_lt hk] at h3
  omega

theorem seqIdxs_nodup (C : Nat) (n : Nat) (hn : n ≤ C) : ∀ p,
    (seqIdxs C p n).Nodup := by
  induction n with
  | zero => intro p; exact List.nodup_nil
  | succ m ih =>
    intro p
    rw [seqIdxs, List.nodup_cons]
    refine ⟨?_, ih (by omega) (p + 1)⟩
    intro hmem
    obtain ⟨r, hr, he⟩ := (seqIdxs_mem C m (p + 1) (p % C)).mp hmem
    have he2 : (p + (r + 1)) % C = p % C := by
      rw [show p + (r + 1) = p + 1 + r from by omega]
      exact he.symm
    exact mod_add_cancel_contra C p (r + 1) (by omega) (by omega) he2

/-! ## Single-transition ring stores -/

theorem ringStorageIdx_one (size p : Nat) (hp : p ≤ size) (h0 : 0 < size) :
    (ringStorageIdx size p 1).1 = [p % size] := by
  unfold ringStorageIdx
  split_ifs with h
  · have hlt : p < size := by omega
    rw [Nat.mod_eq_of_lt hlt]
    simp [List.range']
  · have hpe : p = size := by omega
    subst hpe
    rw [Nat.mod_self]
    simp [List.range']

theorem ringStorageIdx_one_ptr (size p : Nat) (hp : p ≤ size) (h0 : 0 < size) :
    (ringStorageIdx size p 1).2 ≤ size ∧
    (ringStorageIdx size p 1).2 % size = (p + 1) % size := by
  unfold ringStorageIdx
  split_ifs with h
  · exact ⟨by simpa using h, rfl⟩
  · have hpe : p = size := by omega
    subst hpe
    refine ⟨by omega, ?_⟩
    rw [Nat.add_mod_left]
    congr 1
    omega

theorem storeRing_single (b : RingBuffer) (v : Row) (w : Nat)
    (hk : b.keys = ["u"]) (hC : 0 < b.size) (hp : b.pointer ≤ b.size)
    (hlen : (b.bufs "u").length = b.size)
    (hw : ∀ r ∈ b.bufs "u", r.length = w) (hv : v.length = w) :
    storeEpisodeRing b (mkBatch1 v) = .ok
      { size := b.size, keys := b.keys,
        bufs := fun k2 => if k2 = "u" then (b.bufs "u").set (b.pointer % b.size) v
                          else b.bufs k2,
        currentSize := min b.size (b.currentSize + 1),
        pointer := (ringStorageIdx b.size b.pointer 1).2 } := by
  have hne : b.bufs "u" ≠ [] := by
    intro he
    rw [he] at hlen
    simp at hlen
    omega
  have hhead : ((b.bufs "u").headD []).length = w := headD_width _ _ hne hw
  have hassign : assignSlots rowConf [] (b.bufs "u") [b.pointer % b.size] [v] =
      some ((b.bufs "u").set (b.pointer % b.size) v) := by
    simp only [assignSlots]
    rw [if_pos ?hc]
    case hc =>
      cases hb : b.bufs "u" with
      | nil => exact absurd hb hne
      | cons r rest =>
        have hr : r.length = w := hw r (by rw [hb]; exact List.mem_cons_self r rest)
        simp [rowConf, hv, hb, hr]
    simp [writeSlots, writeSlots_nil_idx]
  have hidx1 : (ringStorageIdx b.size b.pointer 1).1 = [b.pointer % b.size] :=
    ringStorageIdx_one _ _ hp hC
  have h1le : 1 ≤ b.size := hC
  unfold storeEpisodeRing mkBatch1
  simp only [List.all_cons, List.all_nil, List.length_cons, List.length_nil,
    beq_self_eq_true, Bool.and_true, Bool.not_true, Bool.false_eq_true, if_false,
    Nat.zero_add]
  rw [if_neg (by simp [h1le]), if_neg (by simp)]
  rw [hk]
  simp only [hidx1, writeAll, List.lookup, beq_self_eq_true, hassign, if_true]

theorem seqIdxs_zero (C p : Nat) : seqIdxs C p 0 = [] := rfl

theorem seqIdxs_succ (C p n : Nat) : seqIdxs C p (n + 1) = p % C :: seqIdxs C (p + 1) n := rfl

theorem storeRing_singles (w : Nat) (vs : List Row) : ∀ (b : RingBuffer),
    b.keys = ["u"] → 0 < b.size → b.pointer ≤ b.size → b.currentSize ≤ b.size →
    (b.bufs "u").length = b.size → (∀ r ∈ b.bufs "u", r.length = w) →
    (∀ r ∈ vs, r.length = w) →
    ∃ b2, storeListRing b (vs.map mkBatch1) = .ok b2 ∧
      b2.size = b.size ∧ b2.keys = b.keys ∧
      b2.bufs "u" = writeSlots (b.bufs "u") (seqIdxs b.size b.pointer vs.length) vs ∧
      b2.currentSize = min b.size (b.currentSize + vs.length) := by
  induction vs with
  | nil =>
    intro b hk hC hp hcs hlen hw _
    refine ⟨b, rfl, rfl, rfl, ?_, ?_⟩
    · rw [List.length_nil, seqIdxs_zero, writeSlots_nil_idx]
    · simp only [List.length_nil, Nat.add_zero]
      omega
  | cons v rest ih =>
    intro b hk hC hp hcs hlen hw hvw
    have hv : v.length = w := hvw v (List.mem_cons_self v rest)
    have hsingle := storeRing_single b v w hk hC hp hlen hw hv
    set b1 : RingBuffer :=
      { size := b.size, keys := b.keys,
        bufs := fun k2 => if k2 = "u" then (b.bufs "u").set (b.pointer % b.size) v
                          else b.bufs k2,
        currentSize := min b.size (b.currentSize + 1),
        pointer := (ringStorageIdx b.size b.pointer 1).2 } with hb1
    have hptr := ringStorageIdx_one_ptr b.size b.pointer hp hC
    have hb1bufs : b1.bufs "u" = (b.bufs "u").set (b.pointer % b.size) v := by
      simp [hb1]
    obtain ⟨b2, hstore, hsz, hkeys, hbufs, hcs2⟩ := ih b1
      (by simp [hb1, hk])
      (by simpa [hb1] using hC)
      (by simpa [hb1] using hptr.1)
      (by simp [hb1])
      (by rw [hb1bufs, List.length_set]; simpa [hb1] using hlen)
      (by
        rw [hb1bufs]
        intro r hr
        rcases List.mem_or_eq_of_mem_set hr with h1 | h2
        · exact hw r h1
        · rw [h2]; exact hv)
      (fun r hr => hvw r (List.mem_cons_of_mem v hr))
    refine ⟨b2, ?_, ?_, ?_, ?_, ?_⟩
    · rw [List.map_cons, storeListRing, hsingle]
      exact hstore
    · simpa [hb1] using hsz
    · rw [hkeys]
    · rw [hbufs, hb1bufs]
      have hcongr : seqIdxs b.size b1.pointer rest.length =
          seqIdxs b.size (b.pointer + 1) rest.length :=
        seqIdxs_congr _ _ _ _ (by simpa [hb1] using hptr.2)
      rw [hcongr]
      rfl
    · rw [hcs2]
      simp only [hb1, List.length_cons]
      omega

theorem seqIdxs_append (C : Nat) (a : Nat) : ∀ p b2,
    seqIdxs C p (a + b2) = seqIdxs C p a ++ seqIdxs C (p + a) b2 := by
  induction a with
  | zero =>
    intro p b2
    rw [Nat.zero_add, Nat.add_zero]
    rfl
  | succ a2 ih =>
    intro p b2
    rw [show a2 + 1 + b2 = (a2 + b2) + 1 from by omega, seqIdxs, ih (p + 1) b2, seqIdxs,
      List.cons_append, show p + 1 + a2 = p + (a2 + 1) from by omega]

/-- C7: for the Ring Transition Buffer with capacity `C`, after storing
`C + m` single transitions one at a time (`0 ≤ m < C`), the buffer holds
exactly the last `C` stored transitions in insertion order starting at slot
index `m` and wrapping modulo `C`: slot `(m + r) % C` holds transition
`m + r` for every `r < C`, and `current_size` has reached `C`. -/
theorem ring_buffer_wraparound (C m w : Nat) (vs : List Row)
    (hC : 0 < C) (hm : m < C) (hlen : vs.length = C + m)
    (hw : ∀ r ∈ vs, r.length = w) :
    ∃ b2, storeListRing (mkRing C w) (vs.map mkBatch1) = .ok b2 ∧
      b2.currentSize = C ∧
      ∀ r, r < C → (b2.bufs "u")[(m + r) % C]? = vs[m + r]? := by
  obtain ⟨b2, hstore, hsz, hkeys, hbufs, hcs⟩ := storeRing_singles w vs (mkRing C w)
    rfl hC (by simp [mkRing]) (by simp [mkRing]) (by simp [mkRing])
    (by
      intro r hr
      simp only [mkRing] at hr
      rw [List.eq_of_mem_replicate hr]
      simp)
    hw
  refine ⟨b2, hstore, ?_, ?_⟩
  · rw [hcs, hlen]
    show min C (0 + (C + m)) = C
    omega
  · intro r hr
    rw [hbufs]
    show (writeSlots (List.replicate C (List.replicate w 0))
      (seqIdxs C 0 vs.length) vs)[(m + r) % C]? = vs[m + r]?
    rw [hlen, show C + m = m + C from by omega, seqIdxs_append C m 0 C, Nat.zero_add]
    have hmr : m + r < vs.length := by omega
    have hne2 : vs[m + r]? ≠ none := by
      rw [ne_eq, List.getElem?_eq_none_iff]
      omega
    obtain ⟨v, hv⟩ := Option.ne_none_iff_exists'.mp hne2
    have hdrop : (vs.drop m)[r]? = some v := by
      rw [List.getElem?_drop]
      exact hv
    rw [hv]
    conv_lhs => rw [← List.take_append_drop m vs]
    rw [writeSlots_append _ _ _ _ _
      (by rw [seqIdxs_length, List.length_take]; omega)]
    refine writeSlots_getElem_distinct _ (seqIdxs C m C) (vs.drop m)
      (seqIdxs_nodup C C le_rfl m) ?_ r ((m + r) % C) v
      (seqIdxs_getElem C C m r hr) hdrop
    intro j hj
    rw [writeSlots_length, List.length_replicate]
    exact seqIdxs_lt C hC m C j hj

theorem ring_buffer_wraparound_witness :
    0 < 2 ∧ 1 < 2 ∧
    ∃ b2, storeListRing (mkRing 2 1) (([[1], [2], [3]] : List Row).map mkBatch1) = .ok b2 ∧
      b2.currentSize = 2 ∧
      ∀ r, r < 2 → (b2.bufs "u")[(1 + r) % 2]? = ([[1], [2], [3]] : List Row)[1 + r]? :=
  ⟨by norm_num, by norm_num,
    ring_buffer_wraparound 2 1 1 [[1], [2], [3]] (by norm_num) (by norm_num)
      (by rfl) (by decide)⟩

/-- C8: for every valid (non-raising) store of a batch with leading
dimension `batch_size`, on either buffer variant, `current_size` after the
call equals `min(capacity, current_size_before + batch_size)`; in
particular it never exceeds capacity. -/
theorem store_currentSize_min (b : RingBuffer) (e : EpBuffer)
    (batch : List (String × List Row)) (batch2 : List (String × List (List Row)))
    (rnd : List Nat) :
    ((storeEpisodeRing b batch).isOk = true →
      (storeEpisodeRing b batch).state.currentSize =
        min b.size (b.currentSize + batchSize batch)) ∧
    ((storeEpisodeEp e batch2 rnd).isOk = true →
      (storeEpisodeEp e batch2 rnd).state.currentSize =
        min e.size (e.currentSize + batchSize batch2)) := by
  constructor
  · intro h
    cases batch with
    | nil => simp [storeEpisodeRing, StoreResult.isOk] at h
    | cons p rest =>
      obtain ⟨k0, v0⟩ := p
      simp only [storeEpisodeRing] at h ⊢
      split_ifs at h ⊢ with h1 h2 h3 h4
      · simp [StoreResult.isOk] at h
      · simp [StoreResult.isOk] at h
      · simp [StoreResult.isOk] at h
      · rfl
      · simp [StoreResult.isOk] at h
  · intro h
    cases batch2 with
    | nil => simp [storeEpisodeEp, StoreResult.isOk] at h
    | cons p rest =>
      obtain ⟨k0, v0⟩ := p
      simp only [storeEpisodeEp] at h ⊢
      split_ifs at h ⊢ with h1 h2 h3 h4
      · simp [StoreResult.isOk] at h
      · simp [StoreResult.isOk] at h
      · simp [StoreResult.isOk] at h
      · rfl
      · simp [StoreResult.isOk] at h

theorem assignSlots_some {α : Type} (conf : α → α → Bool) (dflt : α)
    (arr : List α) (idxs : List Nat) (vals : List α) (arr2 : List α)
    (h : assignSlots conf dflt arr idxs vals = some arr2) :
    arr2 = writeSlots arr idxs vals := by
  unfold assignSlots at h
  split_ifs at h
  exact (Option.some_inj.mp h).symm

theorem writeAll_untouched {α : Type} (conf : α → α → Bool) (dflt : α)
    (keys : List String) : ∀ (bufs : String → List α) (idxs : List Nat)
    (batch : List (String × List α)) (k2 : String) (j : Nat), j ∉ idxs →
    ((writeAll conf dflt bufs keys idxs batch).1 k2)[j]? = (bufs k2)[j]? := by
  induction keys with
  | nil => intro bufs idxs batch k2 j _; rfl
  | cons k ks ih =>
    intro bufs idxs batch k2 j hj
    cases hl : batch.lookup k with
    | none => simp only [writeAll, hl]
    | some vals =>
      cases ha : assignSlots conf dflt (bufs k) idxs vals with
      | none => simp only [writeAll, hl, ha]
      | some arr =>
        simp only [writeAll, hl, ha]
        rw [ih _ idxs batch k2 j hj]
        by_cases he : k2 = k
        · subst he
          simp only [if_pos rfl]
          rw [assignSlots_some conf dflt (bufs k2) idxs vals arr ha]
          exact writeSlots_getElem_notmem _ _ _ _ hj
        · simp only [if_neg he]

/-- C3 (amended): an episode-buffer store whose batch fits entirely in the
remaining sequential room (`current_size + batch_size ≤ capacity`) writes
only into slots at indices `≥` the pre-store `current_size`; hence a
sequence of such stores never overwrites a stored episode before
`current_size` reaches capacity.  (A store that crosses the capacity
boundary places its overflow at random indices `< current_size` — see the
counterexample.) -/
theorem ep_store_no_overwrite_when_fits (b : EpBuffer)
    (batch : List (String × List (List Row))) (rnd : List Nat)
    (hfit : b.currentSize + batchSize batch ≤ b.size)
    (hok : (storeEpisodeEp b batch rnd).isOk = true) :
    ∀ k j, j < b.currentSize →
      ((storeEpisodeEp b batch rnd).state.bufs k)[j]? = (b.bufs k)[j]? := by
  intro k j hj
  cases batch with
  | nil => simp [storeEpisodeEp, StoreResult.isOk] at hok
  | cons p rest =>
    obtain ⟨k0, v0⟩ := p
    have hbs : batchSize ((k0, v0) :: rest) = v0.length := rfl
    rw [hbs] at hfit
    simp only [storeEpisodeEp] at hok ⊢
    split_ifs at hok ⊢ with h1 h2 h3 h4
    · simp [StoreResult.isOk] at hok
    · simp [StoreResult.isOk] at hok
    · simp [StoreResult.isOk] at hok
    · simp only [StoreResult.state]
      have hidx : epStorageIdx b.size b.currentSize v0.length rnd =
          List.range' b.currentSize v0.length := by
        unfold epStorageIdx
        rw [if_pos hfit]
      rw [hidx]
      refine writeAll_untouched epConf [] b.keys b.bufs _ _ k j ?_
      intro hmem
      rw [List.mem_range'_1] at hmem
      omega
    · simp [StoreResult.isOk] at hok

theorem ep_store_no_overwrite_when_fits_witness :
    (0 : Nat) + batchSize [("u", [[[(7 : ℚ)]]])] ≤ 2 ∧
    (storeEpisodeEp { size := 2, keys := ["u"], bufs := fun _ => [[[0]], [[0]]], currentSize := 0, T := 1 } [("u", [[[(7 : ℚ)]]])] []).isOk = true ∧
    ∀ k j, j < (0 : Nat) →
      ((storeEpisodeEp { size := 2, keys := ["u"], bufs := fun _ => [[[0]], [[0]]], currentSize := 0, T := 1 } [("u", [[[(7 : ℚ)]]])] []).state.bufs k)[j]? =
      (({ size := 2, keys := ["u"], bufs := fun _ => [[[0]], [[0]]], currentSize := 0, T := 1 } : EpBuffer).bufs k)[j]? :=
  ⟨by decide, by decide,
    ep_store_no_overwrite_when_fits { size := 2, keys := ["u"], bufs := fun _ => [[[0]], [[0]]], currentSize := 0, T := 1 } [("u", [[[(7 : ℚ)]]])] [] (by decide) (by decide)⟩

/-- C3 (counterexample to the claim as stated): with capacity 2 and
`current_size = 1 < 2`, storing a batch of 2 episodes with the (only
possible) random overflow draw 0 overwrites slot 0, which is below the
pre-store `current_size`. -/
theorem ep_store_overwrite_counterexample :
    (({ size := 2, keys := ["u"], bufs := fun _ => [[[1]], [[2]]], currentSize := 1, T := 1 } : EpBuffer).currentSize < ({ size := 2, keys := ["u"], bufs := fun _ => [[[1]], [[2]]], currentSize := 1, T := 1 } : EpBuffer).size) ∧
    (∀ x ∈ [0], x < (1 : Nat)) ∧
    (storeEpisodeEp { size := 2, keys := ["u"], bufs := fun _ => [[[1]], [[2]]], currentSize := 1, T := 1 } [("u", [[[3]], [[4]]])] [0]).isOk = true ∧
    ((storeEpisodeEp { size := 2, keys := ["u"], bufs := fun _ => [[[1]], [[2]]], currentSize := 1, T := 1 } [("u", [[[3]], [[4]]])] [0]).state.bufs "u")[0]? = some [[(4 : ℚ)]] ∧
    (({ size := 2, keys := ["u"], bufs := fun _ => [[[1]], [[2]]], currentSize := 1, T := 1 } : EpBuffer).bufs "u")[0]? = some [[(1 : ℚ)]] := by
  refine ⟨by decide, by decide, by decide, by decide, by decide⟩

theorem store_currentSize_min_witness :
    (storeEpisodeRing (mkRing 2 1) (mkBatch1 [5])).isOk = true ∧
    (storeEpisodeRing (mkRing 2 1) (mkBatch1 [5])).state.currentSize =
      min (mkRing 2 1).size ((mkRing 2 1).currentSize + batchSize (mkBatch1 [5])) ∧
    (storeEpisodeEp { size := 2, keys := ["u"], bufs := fun _ => [[[0]], [[0]]], currentSize := 0, T := 1 } [("u", [[[(7 : ℚ)]]])] []).isOk = true ∧
    (storeEpisodeEp { size := 2, keys := ["u"], bufs := fun _ => [[[0]], [[0]]], currentSize := 0, T := 1 } [("u", [[[(7 : ℚ)]]])] []).state.currentSize =
      min ({ size := 2, keys := ["u"], bufs := fun _ => [[[0]], [[0]]], currentSize := 0, T := 1 } : EpBuffer).size
        (({ size := 2, keys := ["u"], bufs := fun _ => [[[0]], [[0]]], currentSize := 0, T := 1 } : EpBuffer).currentSize + batchSize [("u", [[[(7 : ℚ)]]])]) :=
  ⟨by decide,
    (store_currentSize_min (mkRing 2 1) { size := 2, keys := ["u"], bufs := fun _ => [[[0]], [[0]]], currentSize := 0, T := 1 } (mkBatch1 [5]) [("u", [[[(7 : ℚ)]]])] []).1 (by decide),
    by decide,
    (store_currentSize_min (mkRing 2 1) { size := 2, keys := ["u"], bufs := fun _ => [[[0]], [[0]]], currentSize := 0, T := 1 } (mkBatch1 [5]) [("u", [[[(7 : ℚ)]]])] []).2 (by decide)⟩

/-- C5 (amended): for input batches that cover every buffer field with the
correct per-step width, `store_episode` on the ring buffer either raises
before mutating anything (empty batch, leading-dimension mismatch across
fields, batch larger than capacity, zero increment — state exactly
unchanged) or fully applies: `current_size` becomes
`min(capacity, current_size + batch_size)`, the pointer advances as
`_get_storage_idx` dictates, and every field holds its batch rows at the
allocated indices.  (For non-conforming per-step shapes the write loop can
raise midway with earlier fields already written and the pointer advanced —
see the counterexample.) -/
theorem ring_store_atomic_for_conforming (b : RingBuffer)
    (batch : List (String × List Row))
    (hn : b.keys.Nodup)
    (hlen : ∀ k ∈ b.keys, (b.bufs k).length = b.size)
    (hp : b.pointer ≤ b.size)
    (hconf : ∀ k ∈ b.keys, ∃ vals, batch.lookup k = some vals ∧
      vals.length = batchSize batch ∧
      ∀ r ∈ vals, r.length = ((b.bufs k).headD []).length) :
    (∀ b2 msg, storeEpisodeRing b batch = .err b2 msg → b2 = b) ∧
    (∀ b2, storeEpisodeRing b batch = .ok b2 →
      b2.currentSize = min b.size (b.currentSize + batchSize batch) ∧
      b2.pointer = (ringStorageIdx b.size b.pointer (batchSize batch)).2 ∧
      ∀ k ∈ b.keys, ∀ vals, batch.lookup k = some vals →
        ∀ (p ip : Nat) (v : Row),
          (ringStorageIdx b.size b.pointer (batchSize batch)).1[p]? = some ip →
          vals[p]? = some v → (b2.bufs k)[ip]? = some v) := by
  cases batch with
  | nil =>
    constructor
    · intro b2 msg heq
      simp only [storeEpisodeRing] at heq
      cases heq
      rfl
    · intro b2 heq
      simp [storeEpisodeRing] at heq
  | cons phead rest =>
    obtain ⟨k0, v0⟩ := phead
    have hbs : batchSize ((k0, v0) :: rest) = v0.length := rfl
    rw [hbs] at hconf ⊢
    simp only [storeEpisodeRing]
    split_ifs with h1 h2 h3 h4
    · exact ⟨fun b2 msg heq => by cases heq; rfl, fun b2 heq => by simp at heq⟩
    · exact ⟨fun b2 msg heq => by cases heq; rfl, fun b2 heq => by simp at heq⟩
    · exact ⟨fun b2 msg heq => by cases heq; rfl, fun b2 heq => by simp at heq⟩
    · have hinc : v0.length ≤ b.size := by
        simp only [Bool.not_eq_true] at h2
        simpa using h2
      constructor
      · intro b2 msg heq
        simp at heq
      · intro b2 heq
        rw [StoreResult.ok.injEq] at heq
        subst heq
        refine ⟨rfl, rfl, ?_⟩
        intro k hk vals hlk p ip v hip hv
        have hidlen : (ringStorageIdx b.size b.pointer v0.length).1.length = v0.length :=
          ringStorageIdx_length _ _ _ hp hinc
        have hforall : ∀ k2 ∈ b.keys, ∃ vals2,
            ((k0, v0) :: rest).lookup k2 = some vals2 ∧
            (assignSlots rowConf [] (b.bufs k2)
              (ringStorageIdx b.size b.pointer v0.length).1 vals2).isSome = true := by
          intro k2 hk2
          obtain ⟨vals2, hlk2, hvl2, hvw2⟩ := hconf k2 hk2
          refine ⟨vals2, hlk2, ?_⟩
          unfold assignSlots
          rw [if_pos ?hcnd]
          · rfl
          case hcnd =>
            rw [Bool.and_eq_true, beq_iff_eq, hvl2, hidlen, List.all_eq_true]
            exact ⟨rfl, fun r hr => by rw [rowConf, beq_iff_eq]; exact hvw2 r hr⟩
        have hw := writeAll_spec rowConf [] b.keys b.bufs
          (ringStorageIdx b.size b.pointer v0.length).1 ((k0, v0) :: rest) hn hforall
        have hspec := (hw.2 k).2 hk vals hlk
        have harr : (writeAll rowConf [] b.bufs b.keys
            (ringStorageIdx b.size b.pointer v0.length).1 ((k0, v0) :: rest)).1 k =
            writeSlots (b.bufs k) (ringStorageIdx b.size b.pointer v0.length).1 vals :=
          assignSlots_some _ _ _ _ _ _ hspec.symm
        show ((writeAll rowConf [] b.bufs b.keys
          (ringStorageIdx b.size b.pointer v0.length).1 ((k0, v0) :: rest)).1 k)[ip]? = some v
        rw [harr]
        refine writeSlots_getElem_distinct _ _ _
          (ringStorageIdx_nodup _ _ _ hp hinc) ?_ p ip v hip hv
        intro i hi
        rw [hlen k hk]
        exact ringStorageIdx_lt _ _ _ hp hinc i hi
    · have hinc : v0.length ≤ b.size := by
        simp only [Bool.not_eq_true] at h2
        simpa using h2
      have hidlen : (ringStorageIdx b.size b.pointer v0.length).1.length = v0.length :=
        ringStorageIdx_length _ _ _ hp hinc
      have hforall : ∀ k2 ∈ b.keys, ∃ vals2,
          ((k0, v0) :: rest).lookup k2 = some vals2 ∧
          (assignSlots rowConf [] (b.bufs k2)
            (ringStorageIdx b.size b.pointer v0.length).1 vals2).isSome = true := by
        intro k2 hk2
        obtain ⟨vals2, hlk2, hvl2, hvw2⟩ := hconf k2 hk2
        refine ⟨vals2, hlk2, ?_⟩
        unfold assignSlots
        rw [if_pos ?hcnd]
        · rfl
        case hcnd =>
          rw [Bool.and_eq_true, beq_iff_eq, hvl2, hidlen, List.all_eq_true]
          exact ⟨rfl, fun r hr => by rw [rowConf, beq_iff_eq]; exact hvw2 r hr⟩
      have hw := writeAll_spec rowConf [] b.keys b.bufs
        (ringStorageIdx b.size b.pointer v0.length).1 ((k0, v0) :: rest) hn hforall
      exact absurd hw.1 h4

theorem ring_store_atomic_witness :
    (mkRing 2 1).keys.Nodup ∧
    ((∀ b2 msg, storeEpisodeRing (mkRing 2 1) (mkBatch1 [5]) = .err b2 msg → b2 = mkRing 2 1) ∧
     (∀ b2, storeEpisodeRing (mkRing 2 1) (mkBatch1 [5]) = .ok b2 →
       b2.currentSize = min (mkRing 2 1).size
         ((mkRing 2 1).currentSize + batchSize (mkBatch1 [5])) ∧
       b2.pointer = (ringStorageIdx (mkRing 2 1).size (mkRing 2 1).pointer
         (batchSize (mkBatch1 [5]))).2 ∧
       ∀ k ∈ (mkRing 2 1).keys, ∀ vals, (mkBatch1 [5]).lookup k = some vals →
         ∀ (p ip : Nat) (v : Row),
           (ringStorageIdx (mkRing 2 1).size (mkRing 2 1).pointer
             (batchSize (mkBatch1 [5]))).1[p]? = some ip →
           vals[p]? = some v → (b2.bufs k)[ip]? = some v)) :=
  ⟨by decide,
    ring_store_atomic_for_conforming (mkRing 2 1) (mkBatch1 [5]) (by decide)
      (fun k _ => rfl) (by decide)
      (by
        intro k hk
        simp only [mkRing, List.mem_singleton] at hk
        subst hk
        exact ⟨[[5]], rfl, rfl, by decide⟩)⟩

/-- C5 (counterexample to the claim as stated): a batch whose fields agree
in leading dimension but where one field's per-step shape is wrong raises
`ValueError` only inside the write loop, AFTER the first field was written
and the write pointer advanced — a raising case in which field arrays and
the pointer are NOT unchanged. -/
theorem ring_store_partial_write_counterexample :
    (storeEpisodeRing { size := 2, keys := ["a", "b"], bufs := fun k => if k = "b" then [[0, 0], [0, 0]] else [[0], [0]], currentSize := 0, pointer := 0 } [("a", [[5]]), ("b", [[1, 2, 3]])]).isOk = false ∧
    ((storeEpisodeRing { size := 2, keys := ["a", "b"], bufs := fun k => if k = "b" then [[0, 0], [0, 0]] else [[0], [0]], currentSize := 0, pointer := 0 } [("a", [[5]]), ("b", [[1, 2, 3]])]).state.bufs "a")[0]? = some [(5 : ℚ)] ∧
    (({ size := 2, keys := ["a", "b"], bufs := fun k => if k = "b" then [[0, 0], [0, 0]] else [[0], [0]], currentSize := 0, pointer := 0 } : RingBuffer).bufs "a")[0]? = some [(0 : ℚ)] ∧
    (storeEpisodeRing { size := 2, keys := ["a", "b"], bufs := fun k => if k = "b" then [[0, 0], [0, 0]] else [[0], [0]], currentSize := 0, pointer := 0 } [("a", [[5]]), ("b", [[1, 2, 3]])]).state.pointer = 1 ∧
    ({ size := 2, keys := ["a", "b"], bufs := fun k => if k = "b" then [[0, 0], [0, 0]] else [[0], [0]], currentSize := 0, pointer := 0 } : RingBuffer).pointer = 0 := by
  refine ⟨by decide, by decide, by decide, by decide, by decide⟩

/-! ## Sampler lemmas -/

theorem lookup_mapVals {β γ : Type} (m : List (String × β)) (f : β → γ)
    (k : String) :
    (m.map (fun p => (p.1, f p.2))).lookup k = (m.lookup k).map f := by
  induction m with
  | nil => rfl
  | cons p rest ih =>
    obtain ⟨a, v⟩ := p
    rw [List.map_cons, lookup_cons_eq, lookup_cons_eq]
    by_cases h : (k == a) = true
    · rw [if_pos h, if_pos h]
      rfl
    · rw [if_neg h, if_neg h]
      exact ih

theorem gatherRows_getElem (arr : List (List Row)) (e t : List Nat)
    (bs i : Nat) (h : i < bs) :
    (gatherRows arr e t bs)[i]? =
      some ((arr.getD (e.getD i 0) []).getD (t.getD i 0) []) := by
  unfold gatherRows
  rw [List.getElem?_map]
  simp [List.getElem?_range h]

theorem her_lookup_other (buffers : EpBuffers) (bs T : Nat) (fp : ℚ)
    (rf : List Row → List Row → TransBatch → List ℚ)
    (eIdxs ts : List Nat) (coins offs : List ℚ) (k : String)
    (hg : k ≠ "g") (hg2 : k ≠ "g_2") (hq : k ≠ "q") (hr : k ≠ "r") :
    (herSampleTransitions buffers bs T fp rf eIdxs ts coins offs).lookup k =
      (buffers.lookup k).map (fun arr => gatherRows arr eIdxs ts bs) := by
  have hmv : List.lookup k (buffers.map fun p => (p.1, gatherRows p.2 eIdxs ts bs)) =
      (buffers.lookup k).map (fun arr => gatherRows arr eIdxs ts bs) :=
    lookup_mapVals buffers (fun arr => gatherRows arr eIdxs ts bs) k
  simp only [herSampleTransitions]
  rw [lookup_setKey_ne _ _ _ _ hr]
  split_ifs with hc
  · rw [lookup_updKey_ne _ _ _ _ hq, lookup_updKey_ne _ _ _ _ hg2,
      lookup_updKey_ne _ _ _ _ hg, hmv]
  · rw [lookup_updKey_ne _ _ _ _ hg2, lookup_updKey_ne _ _ _ _ hg, hmv]

theorem her_lookup_g (buffers : EpBuffers) (bs T : Nat) (fp : ℚ)
    (rf : List Row → List Row → TransBatch → List ℚ)
    (eIdxs ts : List Nat) (coins offs : List ℚ) :
    (herSampleTransitions buffers bs T fp rf eIdxs ts coins offs).lookup "g" =
      (buffers.lookup "g").map (fun arr =>
        maskUpd (herSel coins fp) (fun i _ => futAg buffers eIdxs T ts offs i) 0
          (gatherRows arr eIdxs ts bs)) := by
  have hmv : List.lookup "g" (buffers.map fun p => (p.1, gatherRows p.2 eIdxs ts bs)) =
      (buffers.lookup "g").map (fun arr => gatherRows arr eIdxs ts bs) :=
    lookup_mapVals buffers (fun arr => gatherRows arr eIdxs ts bs) "g"
  simp only [herSampleTransitions]
  rw [lookup_setKey_ne _ _ _ _ (by decide)]
  split_ifs with hc
  · rw [lookup_updKey_ne _ _ _ _ (by decide), lookup_updKey_ne _ _ _ _ (by decide),
      lookup_updKey_self, hmv, Option.map_map]
    rfl
  · rw [lookup_updKey_ne _ _ _ _ (by decide), lookup_updKey_self, hmv,
      Option.map_map]
    rfl

theorem her_lookup_g2 (buffers : EpBuffers) (bs T : Nat) (fp : ℚ)
    (rf : List Row → List Row → TransBatch → List ℚ)
    (eIdxs ts : List Nat) (coins offs : List ℚ) :
    (herSampleTransitions buffers bs T fp rf eIdxs ts coins offs).lookup "g_2" =
      (buffers.lookup "g_2").map (fun arr =>
        maskUpd (herSel coins fp) (fun i _ => futAg buffers eIdxs T ts offs i) 0
          (gatherRows arr eIdxs ts bs)) := by
  have hmv : List.lookup "g_2" (buffers.map fun p => (p.1, gatherRows p.2 eIdxs ts bs)) =
      (buffers.lookup "g_2").map (fun arr => gatherRows arr eIdxs ts bs) :=
    lookup_mapVals buffers (fun arr => gatherRows arr eIdxs ts bs) "g_2"
  simp only [herSampleTransitions]
  rw [lookup_setKey_ne _ _ _ _ (by decide)]
  split_ifs with hc
  · rw [lookup_updKey_ne _ _ _ _ (by decide), lookup_updKey_self,
      lookup_updKey_ne _ _ _ _ (by decide), hmv, Option.map_map]
    rfl
  · rw [lookup_updKey_self, lookup_updKey_ne _ _ _ _ (by decide), hmv,
      Option.map_map]
    rfl

theorem epSampleBuffers_g (b : EpBuffer) (hg : "g" ∈ b.keys) :
    (epSampleBuffers b).lookup "g" = some ((b.bufs "g").take b.currentSize) ∧
    (epSampleBuffers b).lookup "g_2" = some ((b.bufs "g").take b.currentSize) := by
  simp only [epSampleBuffers]
  have h0 : (b.keys.map (fun k => (k, (b.bufs k).take b.currentSize))).lookup "g" =
      some ((b.bufs "g").take b.currentSize) :=
    lookup_map_keys b.keys (fun k => (b.bufs k).take b.currentSize) "g" hg
  split_ifs with hag hgc hgc
  · constructor
    · rw [lookup_setKey_ne _ _ _ _ (by decide), lookup_setKey_ne _ _ _ _ (by decide),
        lookup_setKey_ne _ _ _ _ (by decide)]
      exact h0
    · rw [lookup_setKey_self]
      unfold lookupD
      rw [lookup_setKey_ne _ _ _ _ (by decide), lookup_setKey_ne _ _ _ _ (by decide), h0]
      rfl
  · exact absurd ((containsKey_iff_lookup _ "g").mpr
      ⟨_, by rw [lookup_setKey_ne _ _ _ _ (by decide),
        lookup_setKey_ne _ _ _ _ (by decide)]; exact h0⟩) hgc
  · constructor
    · rw [lookup_setKey_ne _ _ _ _ (by decide), lookup_setKey_ne _ _ _ _ (by decide)]
      exact h0
    · rw [lookup_setKey_self]
      unfold lookupD
      rw [lookup_setKey_ne _ _ _ _ (by decide), h0]
      rfl
  · exact absurd ((containsKey_iff_lookup _ "g").mpr
      ⟨_, by rw [lookup_setKey_ne _ _ _ _ (by decide)]; exact h0⟩) hgc

theorem astypeInt_toNat_lt (u : ℚ) (n : Nat) (h0 : 0 ≤ u) (h1 : u < 1)
    (hn : 0 < n) : (astypeInt (u * (n : ℚ))).toNat < n := by
  have hnn : 0 ≤ u * (n : ℚ) := mul_nonneg h0 (by positivity)
  unfold astypeInt
  rw [if_pos hnn]
  have hlt : u * (n : ℚ) < (n : ℚ) := by
    have hm : u * (n : ℚ) < 1 * (n : ℚ) :=
      mul_lt_mul_of_pos_right h1 (by exact_mod_cast hn)
    simpa using hm
  have hfl : ⌊u * (n : ℚ)⌋ < (n : ℤ) := by
    rw [Int.floor_lt]
    exact_mod_cast hlt
  have hfl0 : 0 ≤ ⌊u * (n : ℚ)⌋ := Int.floor_nonneg.mpr hnn
  omega

theorem infoOf_updKey_not_info (m : TransBatch) (k : String) (f : List Row → List Row)
    (h : startsWithStr k "info_" = false) : infoOf (updKey m k f) = infoOf m := by
  induction m with
  | nil => rfl
  | cons p rest ih =>
    obtain ⟨a, v⟩ := p
    by_cases ha : a = k
    · subst ha
      simp only [updKey, if_pos rfl, eq_self_iff_true, if_true, infoOf,
        List.filterMap_cons, h, Bool.false_eq_true, if_false]
      simpa only [infoOf] using ih
    · simp only [updKey, if_neg ha, infoOf, List.filterMap_cons]
      by_cases hs : startsWithStr a "info_" = true
      · simp only [hs, if_true]
        refine congrArg (fun l => (pyReplace a "info_" "", v) :: l) ?_
        simpa only [infoOf] using ih
      · simp only [Bool.not_eq_true] at hs
        simp only [hs, Bool.false_eq_true, if_false]
        simpa only [infoOf] using ih

theorem infoOf_setKey_not_info (m : TransBatch) (k : String) (v : List Row)
    (h : startsWithStr k "info_" = false) : infoOf (setKey m k v) = infoOf m := by
  unfold setKey
  split_ifs with hc
  · exact infoOf_updKey_not_info m k _ h
  · unfold infoOf
    rw [List.filterMap_append]
    simp [h]

/-- With an all-zero relabel probability no record is ever selected, and
every key other than the recomputed "r" passes through exactly as the
uniform gather produces it. -/
theorem her_lookup_noSel (buffers : EpBuffers) (bs T : Nat) (fp : ℚ)
    (rf : List Row → List Row → TransBatch → List ℚ)
    (eIdxs ts : List Nat) (coins offs : List ℚ)
    (hsel : ∀ i, herSel coins fp i = false) (k : String) (hkr : k ≠ "r") :
    (herSampleTransitions buffers bs T fp rf eIdxs ts coins offs).lookup k =
      (buffers.lookup k).map (fun arr => gatherRows arr eIdxs ts bs) := by
  have hmv : List.lookup k (buffers.map fun p => (p.1, gatherRows p.2 eIdxs ts bs)) =
      (buffers.lookup k).map (fun arr => gatherRows arr eIdxs ts bs) :=
    lookup_mapVals buffers (fun arr => gatherRows arr eIdxs ts bs) k
  simp only [herSampleTransitions]
  rw [lookup_setKey_ne _ _ _ _ hkr]
  rw [updKey_id _ _ _ (fun w => maskUpd_false _ _ _ _ hsel),
    updKey_id _ _ _ (fun w => maskUpd_false _ _ _ _ hsel)]
  split_ifs with hc
  · rw [updKey_id _ _ _ (fun w => maskUpd_false _ _ _ _ hsel)]
    exact hmv
  · exact hmv

/-- C2 (amended): in every batch returned by
`HERReplayBuffer.sample_transitions`, the returned "r" field equals
`reward_fun` applied to the returned "ag_2" and "g_2" fields together with
the info mapping built from every returned field whose name starts with
"info_", keyed by the field name with EVERY occurrence of the substring
"info_" removed (`str.replace`, not a pure prefix strip), each reward
reshaped to a one-element row (the `[batch_size, 1]` reshape). -/
theorem her_reward_from_returned_fields (buffers : EpBuffers) (bs T : Nat)
    (fp : ℚ) (rf : List Row → List Row → TransBatch → List ℚ)
    (eIdxs ts : List Nat) (coins offs : List ℚ) :
    (herSampleTransitions buffers bs T fp rf eIdxs ts coins offs).lookup "r" =
      some ((rf
        (lookupD (herSampleTransitions buffers bs T fp rf eIdxs ts coins offs) "ag_2" [])
        (lookupD (herSampleTransitions buffers bs T fp rf eIdxs ts coins offs) "g_2" [])
        (infoOf (herSampleTransitions buffers bs T fp rf eIdxs ts coins offs))).map
        (fun x => [x])) := by
  simp only [herSampleTransitions]
  rw [lookup_setKey_self]
  congr 1
  unfold lookupD
  rw [lookup_setKey_ne _ _ _ _ (by decide), lookup_setKey_ne _ _ _ _ (by decide),
    infoOf_setKey_not_info _ _ _ (by decide)]

/-- C2 (counterexample to the claim as stated): the source builds the info
mapping with `key.replace("info_", "")`, which removes EVERY occurrence of
"info_", not only the leading one.  On a goal-conditioned schema carrying
every field `sample_transitions` reads ("u", "ag", "g", "g_2", "ag_2",
"r") plus a field named "info_info_x", the code hands the reward function
the info key "x", while the claim's prefix-stripped mapping would hand it
"info_x"; a reward function that looks the key up gets a different answer,
so the returned "r" differs from the claim's predicted value.  (No record
is selected here — the coin 1/2 is a valid `uniform[0,1)` draw against
`future_p = 0` — so the run touches no relabel-only data.) -/
theorem her_info_strip_counterexample :
    (herSampleTransitions [("u", [[[1]]]), ("ag", [[[0], [0]]]), ("g", [[[0]]]), ("g_2", [[[0]]]), ("ag_2", [[[0]]]), ("info_info_x", [[[0]]]), ("r", [[[9]]])] 1 1 0 (fun _ _ info => if containsKey info "info_x" then [1] else [0]) [0] [0] [(1 : ℚ) / 2] [0]).lookup "r" = some [[(0 : ℚ)]] ∧
    ((fun (_ : List Row) (_ : List Row) (info : TransBatch) => if containsKey info "info_x" then [(1 : ℚ)] else [0])
      (lookupD (herSampleTransitions [("u", [[[1]]]), ("ag", [[[0], [0]]]), ("g", [[[0]]]), ("g_2", [[[0]]]), ("ag_2", [[[0]]]), ("info_info_x", [[[0]]]), ("r", [[[9]]])] 1 1 0 (fun _ _ info => if containsKey info "info_x" then [1] else [0]) [0] [0] [(1 : ℚ) / 2] [0]) "ag_2" [])
      (lookupD (herSampleTransitions [("u", [[[1]]]), ("ag", [[[0], [0]]]), ("g", [[[0]]]), ("g_2", [[[0]]]), ("ag_2", [[[0]]]), ("info_info_x", [[[0]]]), ("r", [[[9]]])] 1 1 0 (fun _ _ info => if containsKey info "info_x" then [1] else [0]) [0] [0] [(1 : ℚ) / 2] [0]) "g_2" [])
      (infoOfSpec (herSampleTransitions [("u", [[[1]]]), ("ag", [[[0], [0]]]), ("g", [[[0]]]), ("g_2", [[[0]]]), ("ag_2", [[[0]]]), ("info_info_x", [[[0]]]), ("r", [[[9]]])] 1 1 0 (fun _ _ info => if containsKey info "info_x" then [1] else [0]) [0] [0] [(1 : ℚ) / 2] [0]))).map (fun x => [x]) = [[(1 : ℚ)]] := by
  exact ⟨by decide, by decide⟩

/-- C6 (amended): with relabel ratio `k = 0` (so `future_p = 0`),
`HERReplayBuffer.sample_transitions` never selects any record for
relabeling, and on the same buffer contents and the same episode/timestep
draws its output agrees with `UniformReplayBuffer.sample_transitions` on
every field EXCEPT "r": HER always recomputes "r" through `reward_fun`,
while the uniform sampler returns the stored rewards, so the two outputs
coincide exactly when the stored rewards already agree with `reward_fun`
(see the counterexample for a buffer where they differ). -/
theorem her_k0_no_relabel_matches_uniform (buffers : EpBuffers) (bs T : Nat)
    (rf : List Row → List Row → TransBatch → List ℚ)
    (eIdxs ts : List Nat) (coins offs : List ℚ)
    (hc : ∀ c ∈ coins, 0 ≤ c) :
    (∀ i, herSel coins (mkFutureP 0) i = false) ∧
    (∀ k, k ≠ "r" →
      (herSampleTransitions buffers bs T (mkFutureP 0) rf eIdxs ts coins offs).lookup k =
        (uniformSampleTransitions buffers bs eIdxs ts).lookup k) := by
  have hfp : mkFutureP 0 = 0 := by
    unfold mkFutureP
    norm_num
  have hsel : ∀ i, herSel coins (mkFutureP 0) i = false := by
    intro i
    unfold herSel
    apply decide_eq_false
    intro hlt
    rw [hfp] at hlt
    have hge : 0 ≤ coins.getD i 1 := by
      by_cases hi : i < coins.length
      · refine hc _ ?_
        rw [List.getD_eq_getElem coins 1 hi]
        exact List.getElem_mem hi
      · rw [List.getD_eq_default coins 1 (by omega)]
        norm_num
    exact absurd hlt (not_lt.mpr hge)
  refine ⟨hsel, ?_⟩
  intro k hk
  rw [her_lookup_noSel buffers bs T (mkFutureP 0) rf eIdxs ts coins offs hsel k hk]
  exact (lookup_mapVals buffers (fun arr => gatherRows arr eIdxs ts bs) k).symm

theorem her_k0_no_relabel_matches_uniform_witness :
    (∀ c ∈ ([(1 : ℚ) / 2] : List ℚ), 0 ≤ c) ∧
    ((∀ i, herSel [(1 : ℚ) / 2] (mkFutureP 0) i = false) ∧
     (∀ k, k ≠ "r" →
       (herSampleTransitions [("u", [[[3]]])] 1 1 (mkFutureP 0) (fun _ _ _ => [0]) [0] [0] [(1 : ℚ) / 2] [0]).lookup k =
         (uniformSampleTransitions [("u", [[[3]]])] 1 [0] [0]).lookup k)) :=
  ⟨by norm_num,
    her_k0_no_relabel_matches_uniform [("u", [[[3]]])] 1 1 (fun _ _ _ => [0])
      [0] [0] [(1 : ℚ) / 2] [0] (by norm_num)⟩

/-- C6 (counterexample to the claim as stated): with `k = 0` and identical
draws, the HER output still differs from the uniform output on the "r"
field whenever the stored reward disagrees with `reward_fun`.  The buffer
carries every field `sample_transitions` reads ("u", "ag", "g", "g_2",
"ag_2", "r"); it stores reward 5 while `reward_fun` returns 7, and no
record is relabeled (the coin 0 is a valid `uniform[0,1)` draw and
`future_p = 0`), yet the two samplers return different "r" rows. -/
theorem her_k0_reward_differs_counterexample :
    (herSampleTransitions [("u", [[[1]]]), ("ag", [[[0], [0]]]), ("g", [[[0]]]), ("g_2", [[[0]]]), ("ag_2", [[[0]]]), ("r", [[[5]]])] 1 1 (mkFutureP 0) (fun _ _ _ => [7]) [0] [0] [0] [0]).lookup "r" = some [[(7 : ℚ)]] ∧
    (uniformSampleTransitions [("u", [[[1]]]), ("ag", [[[0], [0]]]), ("g", [[[0]]]), ("g_2", [[[0]]]), ("ag_2", [[[0]]]), ("r", [[[5]]])] 1 [0] [0]).lookup "r" = some [[(5 : ℚ)]] ∧
    (∀ c ∈ ([0] : List ℚ), 0 ≤ c) := by
  refine ⟨by decide, by decide, by decide⟩

/-- C9: in every batch returned by the HER sampler through
`ReplayBuffer.sample` on a buffer whose schema contains "g", the returned
"g_2" field equals the returned "g" field: the preprocessing derives
`g_2` as the goal array itself, the gather reads both from the same data,
and relabeling writes the identical future achieved goal into both. -/
theorem her_g2_equals_g (b : EpBuffer) (bs : Nat) (fp : ℚ)
    (rf : List Row → List Row → TransBatch → List ℚ)
    (eIdxs ts : List Nat) (coins offs : List ℚ) (hg : "g" ∈ b.keys) :
    (herSample b bs fp rf eIdxs ts coins offs).lookup "g" =
      (herSample b bs fp rf eIdxs ts coins offs).lookup "g_2" := by
  obtain ⟨h1, h2⟩ := epSampleBuffers_g b hg
  unfold herSample
  rw [her_lookup_g, her_lookup_g2, h1, h2]

theorem her_g2_equals_g_witness :
    "g" ∈ (({ size := 1, keys := ["g"], bufs := fun _ => [[[2]]], currentSize := 1, T := 1 } : EpBuffer).keys) ∧
    (herSample { size := 1, keys := ["g"], bufs := fun _ => [[[2]]], currentSize := 1, T := 1 } 1 (1 : ℚ) (fun _ _ _ => [0]) [0] [0] [(1 : ℚ) / 2] [0]).lookup "g" =
      (herSample { size := 1, keys := ["g"], bufs := fun _ => [[[2]]], currentSize := 1, T := 1 } 1 (1 : ℚ) (fun _ _ _ => [0]) [0] [0] [(1 : ℚ) / 2] [0]).lookup "g_2" :=
  ⟨by decide,
    her_g2_equals_g { size := 1, keys := ["g"], bufs := fun _ => [[[2]]], currentSize := 1, T := 1 } 1 (1 : ℚ) (fun _ _ _ => [0]) [0] [0] [(1 : ℚ) / 2] [0] (by decide)⟩

/-- C1: for every record selected for hindsight relabeling (its coin is
below `future_p`), with a timestep draw `t < T` and a uniform offset draw
in `[0, 1)`, the offset `int(u * (T - t))` lies in `[0, T - t)`, the
substituted timestep `t + 1 + offset` is strictly greater than `t` and at
most `T` (never past the episode horizon), and both the returned "g" and
"g_2" entries of that record equal the stored achieved goal of the drawn
episode at that timestep. -/
theorem her_relabel_future_goal (buffers : EpBuffers) (bs T : Nat) (fp : ℚ)
    (rf : List Row → List Row → TransBatch → List ℚ)
    (eIdxs ts : List Nat) (coins offs : List ℚ) (i : Nat)
    (gv g2v : List (List Row))
    (hi : i < bs)
    (hgv : buffers.lookup "g" = some gv) (hg2v : buffers.lookup "g_2" = some g2v)
    (hsel : coins.getD i 1 < fp)
    (ht : ts.getD i 0 < T)
    (ho0 : 0 ≤ offs.getD i 0) (ho1 : offs.getD i 0 < 1) :
    (astypeInt (offs.getD i 0 * ((T : ℚ) - (ts.getD i 0 : ℚ)))).toNat < T - ts.getD i 0 ∧
    ts.getD i 0 < futT T ts offs i ∧ futT T ts offs i ≤ T ∧
    ((herSampleTransitions buffers bs T fp rf eIdxs ts coins offs).lookup "g").bind
      (fun g => g[i]?) =
      some (((lookupD buffers "ag" []).getD (eIdxs.getD i 0) []).getD (futT T ts offs i) []) ∧
    ((herSampleTransitions buffers bs T fp rf eIdxs ts coins offs).lookup "g_2").bind
      (fun g => g[i]?) =
      some (((lookupD buffers "ag" []).getD (eIdxs.getD i 0) []).getD (futT T ts offs i) []) := by
  have hcast : (T : ℚ) - (ts.getD i 0 : ℚ) = ((T - ts.getD i 0 : Nat) : ℚ) :=
    (Nat.cast_sub (le_of_lt ht)).symm
  have hoff : (astypeInt (offs.getD i 0 * ((T : ℚ) - (ts.getD i 0 : ℚ)))).toNat <
      T - ts.getD i 0 := by
    rw [hcast]
    exact astypeInt_toNat_lt _ _ ho0 ho1 (by omega)
  have hsel2 : herSel coins fp i = true := by
    unfold herSel
    exact decide_eq_true hsel
  refine ⟨hoff, by unfold futT; omega, by unfold futT; omega, ?_, ?_⟩
  · rw [her_lookup_g, hgv]
    show (maskUpd (herSel coins fp) (fun j _ => futAg buffers eIdxs T ts offs j) 0
      (gatherRows gv eIdxs ts bs))[i]? =
      some (((lookupD buffers "ag" []).getD (eIdxs.getD i 0) []).getD (futT T ts offs i) [])
    rw [maskUpd_getElem, gatherRows_getElem gv eIdxs ts bs i hi, Option.map_some',
      Nat.zero_add, if_pos hsel2]
    rfl
  · rw [her_lookup_g2, hg2v]
    show (maskUpd (herSel coins fp) (fun j _ => futAg buffers eIdxs T ts offs j) 0
      (gatherRows g2v eIdxs ts bs))[i]? =
      some (((lookupD buffers "ag" []).getD (eIdxs.getD i 0) []).getD (futT T ts offs i) [])
    rw [maskUpd_getElem, gatherRows_getElem g2v eIdxs ts bs i hi, Option.map_some',
      Nat.zero_add, if_pos hsel2]
    rfl

theorem her_relabel_future_goal_witness :
    ([(0 : ℚ)].getD 0 1 < (1 : ℚ)) ∧ ([0].getD 0 0 < 1) ∧
    ((astypeInt ([(0 : ℚ)].getD 0 0 * (((1 : Nat) : ℚ) - (([0].getD 0 0 : Nat) : ℚ)))).toNat < 1 - [0].getD 0 0 ∧
     [0].getD 0 0 < futT 1 [0] [(0 : ℚ)] 0 ∧ futT 1 [0] [(0 : ℚ)] 0 ≤ 1 ∧
     ((herSampleTransitions [("g", [[[0]]]), ("g_2", [[[0]]]), ("ag", [[[5], [7]]])] 1 1 1 (fun _ _ _ => ([] : List ℚ)) [0] [0] [(0 : ℚ)] [(0 : ℚ)]).lookup "g").bind (fun g => g[0]?) =
       some (((lookupD [("g", [[[0]]]), ("g_2", [[[0]]]), ("ag", [[[5], [7]]])] "ag" []).getD ([0].getD 0 0) []).getD (futT 1 [0] [(0 : ℚ)] 0) []) ∧
     ((herSampleTransitions [("g", [[[0]]]), ("g_2", [[[0]]]), ("ag", [[[5], [7]]])] 1 1 1 (fun _ _ _ => ([] : List ℚ)) [0] [0] [(0 : ℚ)] [(0 : ℚ)]).lookup "g_2").bind (fun g => g[0]?) =
       some (((lookupD [("g", [[[0]]]), ("g_2", [[[0]]]), ("ag", [[[5], [7]]])] "ag" []).getD ([0].getD 0 0) []).getD (futT 1 [0] [(0 : ℚ)] 0) [])) :=
  ⟨by decide, by decide,
    her_relabel_future_goal [("g", [[[0]]]), ("g_2", [[[0]]]), ("ag", [[[5], [7]]])] 1 1 1
      (fun _ _ _ => ([] : List ℚ)) [0] [0] [(0 : ℚ)] [(0 : ℚ)] 0 [[[0]]] [[[0]]]
      (by decide) (by decide) (by decide) (by decide) (by decide) (by decide) (by decide)⟩

/-- C10: `RingReplayBuffer.load_from_file` with `num_demo = 0` on a file
whose "done" field has at least one nonzero marker does NOT load zero
episodes: Python computes `dones[num_demo - 1] = dones[-1]`, the last
completed-episode boundary, so the call is indistinguishable from
`num_demo = None` — it loads every transition up to and including the last
boundary. -/
theorem ring_load_numDemo_zero (b : RingBuffer) (file : List (String × List Row))
    (hne : nonzeroRows (lookupD file "done" []) ≠ []) :
    loadFromFileRing b file (some 0) = loadFromFileRing b file none ∧
    pyIndex (nonzeroRows (lookupD file "done" [])) ((0 : Int) - 1) =
      (nonzeroRows (lookupD file "done" [])).getLast? := by
  constructor
  · have hd : (decide ((0 : Int) ≤
        ((nonzeroRows (lookupD file "done" [])).length : Int))) = true :=
      decide_eq_true (Int.natCast_nonneg _)
    simp only [loadFromFileRing, hd, Bool.not_true, Bool.false_eq_true, if_false]
    rw [show ((0 : Int) - 1) = (-1 : Int) from by norm_num]
  · rw [show ((0 : Int) - 1) = (-1 : Int) from by norm_num]
    unfold pyIndex
    rw [if_neg (by norm_num)]
    have hlen : 0 < (nonzeroRows (lookupD file "done" [])).length :=
      List.length_pos.mpr hne
    rw [if_pos (by simpa using hlen)]
    have hlast := List.getLast?_eq_getElem? (nonzeroRows (lookupD file "done" []))
    rw [hlast]
    norm_num

theorem ring_load_numDemo_zero_witness :
    nonzeroRows (lookupD [("done", [[(1 : ℚ)]])] "done" []) ≠ [] ∧
    (loadFromFileRing (mkRing 1 1) [("done", [[(1 : ℚ)]])] (some 0) =
      loadFromFileRing (mkRing 1 1) [("done", [[(1 : ℚ)]])] none ∧
     pyIndex (nonzeroRows (lookupD [("done", [[(1 : ℚ)]])] "done" [])) ((0 : Int) - 1) =
      (nonzeroRows (lookupD [("done", [[(1 : ℚ)]])] "done" [])).getLast?) :=
  ⟨by decide, ring_load_numDemo_zero (mkRing 1 1) [("done", [[(1 : ℚ)]])] (by decide)⟩

/-- C4 (amended): for the Episode Buffer variant with `current_size > 0`,
dumping and then loading into a freshly constructed buffer of the same
schema reproduces the same `current_size` and identical contents on the
whole valid prefix of every field.  Loading performs no reset of
`current_size` or internal pointers — it simply re-invokes `store` on the
loaded batch, which lands in the sequential-fill branch because the fresh
buffer starts empty.  (For the Ring variant the loader truncates the
archive at the last nonzero "done" marker, so the round trip loses data
whenever the last stored transition is not an episode boundary — see the
counterexample.) -/
theorem ep_dump_load_roundtrip (b fresh : EpBuffer) (sh : String → List Nat)
    (hkeys : fresh.keys = b.keys) (hsize : fresh.size = b.size)
    (hfcs : fresh.currentSize = 0)
    (hkne : b.keys ≠ []) (hnodup : b.keys.Nodup)
    (hcs0 : 0 < b.currentSize) (hcsle : b.currentSize ≤ b.size)
    (hlen : ∀ k ∈ b.keys, (b.bufs k).length = b.size)
    (hflen : ∀ k ∈ b.keys, (fresh.bufs k).length = b.size)
    (hsh : ∀ k ∈ b.keys, ∀ ep ∈ b.bufs k, ep.map List.length = sh k)
    (hfsh : ∀ k ∈ b.keys, ∀ ep ∈ fresh.bufs k, ep.map List.length = sh k) :
    ∃ file b2 batch, dumpEp b = some file ∧
      loadFromFileEp fresh file none = .ok (b2, batch) ∧
      b2.currentSize = b.currentSize ∧
      ∀ k ∈ b.keys, ∀ j, j < b.currentSize → (b2.bufs k)[j]? = (b.bufs k)[j]? := by
  obtain ⟨k0, ks, hbk⟩ : ∃ k0 ks, b.keys = k0 :: ks := by
    cases hbk : b.keys with
    | nil => exact absurd hbk hkne
    | cons a l => exact ⟨a, l, rfl⟩
  have htl : ∀ k ∈ b.keys, ((b.bufs k).take b.currentSize).length = b.currentSize := by
    intro k hk
    rw [List.length_take, hlen k hk]
    omega
  set file := b.keys.map (fun k => (k, (b.bufs k).take b.currentSize)) with hfiledef
  have hfile : dumpEp b = some file := by
    unfold dumpEp dumpToFile
    rw [if_neg (by omega)]
  have hlk : ∀ k ∈ b.keys, file.lookup k = some ((b.bufs k).take b.currentSize) := by
    intro k hk
    exact lookup_map_keys _ _ _ hk
  have hfilecons : file = (k0, (b.bufs k0).take b.currentSize) ::
      ks.map (fun k => (k, (b.bufs k).take b.currentSize)) := by
    rw [hfiledef, hbk, List.map_cons]
  have hk0mem : k0 ∈ b.keys := by
    rw [hbk]
    exact List.mem_cons_self _ _
  have hv0len : ((b.bufs k0).take b.currentSize).length = b.currentSize := htl k0 hk0mem
  have hall : (file.all fun p => p.2.length == ((b.bufs k0).take b.currentSize).length)
      = true := by
    rw [List.all_eq_true]
    intro p hp
    rw [hfiledef] at hp
    obtain ⟨k, hk, hpk⟩ := List.mem_map.mp hp
    rw [← hpk, beq_iff_eq]
    show ((b.bufs k).take b.currentSize).length = _
    rw [htl k hk, hv0len]
  have hidx : epStorageIdx fresh.size fresh.currentSize
      ((b.bufs k0).take b.currentSize).length [] = List.range' 0 b.currentSize := by
    rw [hfcs, hsize, hv0len]
    unfold epStorageIdx
    rw [if_pos (by omega)]
  have hforall : ∀ k ∈ fresh.keys, ∃ vals, file.lookup k = some vals ∧
      (assignSlots epConf [] (fresh.bufs k) (List.range' 0 b.currentSize) vals).isSome
        = true := by
    intro k hk
    rw [hkeys] at hk
    refine ⟨(b.bufs k).take b.currentSize, hlk k hk, ?_⟩
    unfold assignSlots
    rw [if_pos ?hcnd]
    · rfl
    case hcnd =>
      rw [Bool.and_eq_true, beq_iff_eq, htl k hk, List.length_range', List.all_eq_true]
      refine ⟨rfl, ?_⟩
      intro v hv
      have hvm : v ∈ b.bufs k := List.mem_of_mem_take hv
      have hfne : fresh.bufs k ≠ [] := by
        intro he
        have hl := hflen k hk
        rw [he] at hl
        simp at hl
        omega
      rw [epConf, beq_iff_eq, hsh k hk v hvm]
      cases hfb : fresh.bufs k with
      | nil => exact absurd hfb hfne
      | cons e rest =>
        show sh k = e.map List.length
        rw [hfsh k hk e (by rw [hfb]; exact List.mem_cons_self _ _)]
  have hwa := writeAll_spec epConf [] fresh.keys fresh.bufs
    (List.range' 0 b.currentSize) file (hkeys ▸ hnodup) hforall
  have hst : storeEpisodeEp fresh file [] = .ok
      { size := fresh.size, keys := fresh.keys,
        bufs := (writeAll epConf [] fresh.bufs fresh.keys
          (List.range' 0 b.currentSize) file).1,
        currentSize := min fresh.size
          (fresh.currentSize + ((b.bufs k0).take b.currentSize).length),
        T := fresh.T } := by
    have h2b : (decide ((List.take b.currentSize (b.bufs k0)).length ≤ fresh.size))
        = true := decide_eq_true (by rw [hv0len, hsize]; omega)
    have h3b : (decide (0 < (List.take b.currentSize (b.bufs k0)).length))
        = true := decide_eq_true (by rw [hv0len]; omega)
    rw [hfilecons] at hall hwa ⊢
    simp only [storeEpisodeEp]
    rw [if_neg (by rw [hall]; decide), if_neg (by rw [h2b]; decide),
      if_neg (by rw [h3b]; decide), hidx, if_pos hwa.1]
  refine ⟨file,
    { size := fresh.size, keys := fresh.keys,
      bufs := (writeAll epConf [] fresh.bufs fresh.keys
        (List.range' 0 b.currentSize) file).1,
      currentSize := min fresh.size
        (fresh.currentSize + ((b.bufs k0).take b.currentSize).length),
      T := fresh.T }, file, hfile, ?_, ?_, ?_⟩
  · simp only [loadFromFileEp, Bool.not_true, Bool.false_eq_true, if_false, hst]
  · show min fresh.size (fresh.currentSize + ((b.bufs k0).take b.currentSize).length)
      = b.currentSize
    rw [hfcs, hsize, hv0len]
    omega
  · intro k hk j hj
    show ((writeAll epConf [] fresh.bufs fresh.keys
      (List.range' 0 b.currentSize) file).1 k)[j]? = (b.bufs k)[j]?
    have hspec := (hwa.2 k).2 (hkeys ▸ hk) ((b.bufs k).take b.currentSize) (hlk k hk)
    have hwk : (writeAll epConf [] fresh.bufs fresh.keys
        (List.range' 0 b.currentSize) file).1 k =
        writeSlots (fresh.bufs k) (List.range' 0 b.currentSize)
          ((b.bufs k).take b.currentSize) :=
      assignSlots_some _ _ _ _ _ _ hspec.symm
    rw [hwk]
    have hjlen : j < (b.bufs k).length := by
      rw [hlen k hk]
      omega
    have hbj : (b.bufs k)[j]? = some ((b.bufs k).get ⟨j, hjlen⟩) := by
      rw [List.getElem?_eq_getElem hjlen]
      rfl
    rw [hbj]
    refine writeSlots_getElem_distinct _ _ _
      (List.nodup_range' _ _ _ (by norm_num)) ?_ j j _ ?_ ?_
    · intro i hi
      rw [List.mem_range'_1] at hi
      rw [hflen k hk]
      omega
    · rw [List.getElem?_range' _ _ hj]
      simp
    · rw [List.getElem?_take, if_pos hj, hbj]

theorem ep_dump_load_roundtrip_witness :
    (0 : Nat) < 1 ∧
    ∃ file b2 batch,
      dumpEp { size := 1, keys := ["u"], bufs := fun _ => [[[2]]], currentSize := 1, T := 1 } = some file ∧
      loadFromFileEp { size := 1, keys := ["u"], bufs := fun _ => [[[0]]], currentSize := 0, T := 1 } file none = .ok (b2, batch) ∧
      b2.currentSize = ({ size := 1, keys := ["u"], bufs := fun _ => [[[2]]], currentSize := 1, T := 1 } : EpBuffer).currentSize ∧
      ∀ k ∈ ({ size := 1, keys := ["u"], bufs := fun _ => [[[2]]], currentSize := 1, T := 1 } : EpBuffer).keys, ∀ j,
        j < ({ size := 1, keys := ["u"], bufs := fun _ => [[[2]]], currentSize := 1, T := 1 } : EpBuffer).currentSize →
        (b2.bufs k)[j]? = (({ size := 1, keys := ["u"], bufs := fun _ => [[[2]]], currentSize := 1, T := 1 } : EpBuffer).bufs k)[j]? :=
  ⟨by decide,
    ep_dump_load_roundtrip
      { size := 1, keys := ["u"], bufs := fun _ => [[[2]]], currentSize := 1, T := 1 }
      { size := 1, keys := ["u"], bufs := fun _ => [[[0]]], currentSize := 0, T := 1 }
      (fun _ => [1]) rfl rfl rfl (by decide) (by decide) (by decide) (by decide)
      (by decide) (by decide) (by decide) (by decide)⟩

/-- C4 (counterexample to the claim as stated): for the Ring variant,
`load_from_file` truncates the archive to one past the LAST nonzero "done"
marker before storing, and it never resets `current_size` or the pointer.
A buffer holding two transitions whose last transition is not an episode
boundary dumps both, but reloading a fresh buffer keeps only the first:
`current_size` comes back 1, not 2 — `load(dump(buffer))` does not
reproduce the buffer. -/
theorem ring_roundtrip_counterexample :
    ({ size := 2, keys := ["done"], bufs := fun _ => [[1], [0]], currentSize := 2, pointer := 2 } : RingBuffer).currentSize = 2 ∧
    dumpRing { size := 2, keys := ["done"], bufs := fun _ => [[1], [0]], currentSize := 2, pointer := 2 } = some [("done", [[(1 : ℚ)], [0]])] ∧
    (loadFromFileRing { size := 2, keys := ["done"], bufs := fun _ => [[0], [0]], currentSize := 0, pointer := 0 } [("done", [[(1 : ℚ)], [0]])] none).isOk = true ∧
    (loadFromFileRing { size := 2, keys := ["done"], bufs := fun _ => [[0], [0]], currentSize := 0, pointer := 0 } [("done", [[(1 : ℚ)], [0]])] none).state.1.currentSize = 1 := by
  refine ⟨by decide, by decide, by decide, by decide⟩
